import Mathlib

/-!
# cvefeeds — verification of the scraping pipeline (src/webscrapping.py)

A shallow embedding of the CVE feed-scraping program. Strings are lists of
characters (`Str`); Python regular-expression searches with the two fixed
patterns of the program are embedded as explicit scanners; `html.unescape`
is modelled by an entity scanner over a standard entity table; the SQLite
table `ca_cve` with its `cve_number` primary key is modelled as a list of
records with insert-if-absent semantics; both HTTP fetches are oracles in
an environment record, with `FetchResult.err` standing for a network error
or a non-2xx status (`raise_for_status`).

The pipeline `fetch_and_process_cve` mirrors the source's control flow:
the one `try` block wraps the feed fetch and the whole item loop, so a
detail-page fetch error or an extraction `AttributeError` ends the loop
(recorded in `RunState.aborted`); an `insert` returning `False` does not.
-/

/-- Program strings: Python `str` as a list of characters. -/
abbrev Str := List Char

/-- `"N/A"`, the fallback identifier and name (lines 110 and 134). -/
def naStr : Str := "N/A".toList

/-- The whitespace class of Python's `\s` and `str.strip()` (ASCII range). -/
def isWS (c : Char) : Bool :=
  c = ' ' || c = '\t' || c = '\n' || c = '\r' || c = Char.ofNat 11 || c = Char.ofNat 12

/-- The word class of Python's `\w` (ASCII range): alphanumeric or underscore. -/
def isWordChar (c : Char) : Bool := c.isAlphanum || c = '_'

theorem word_not_ws {c : Char} (h : isWordChar c = true) : isWS c = false := by
  cases hw : isWS c
  · rfl
  · exfalso
    simp only [isWS, Bool.or_eq_true, decide_eq_true_eq] at hw
    rcases hw with ((((h1 | h1) | h1) | h1) | h1) | h1 <;> subst h1 <;>
      exact absurd h (by decide)

theorem digit_not_ws {c : Char} (h : c.isDigit = true) : isWS c = false := by
  cases hw : isWS c
  · rfl
  · exfalso
    simp only [isWS, Bool.or_eq_true, decide_eq_true_eq] at hw
    rcases hw with ((((h1 | h1) | h1) | h1) | h1) | h1 <;> subst h1 <;>
      exact absurd h (by decide)

/-! ## List scanning helper lemmas (maximal munch) -/

theorem dropWhile_head_false (p : Char → Bool) :
    ∀ (l : Str) (c : Char), (l.dropWhile p).head? = some c → p c = false := by
  intro l
  induction l with
  | nil => intro c h; simp [List.dropWhile] at h
  | cons x t ih =>
    intro c h
    by_cases hx : p x
    · rw [List.dropWhile_cons_of_pos hx] at h
      exact ih c h
    · rw [List.dropWhile_cons_of_neg hx] at h
      simp only [List.head?_cons, Option.some.injEq] at h
      subst h
      exact Bool.eq_false_iff.mpr hx

theorem mem_takeWhile_pred (p : Char → Bool) :
    ∀ (l : Str) (c : Char), c ∈ l.takeWhile p → p c = true := by
  intro l
  induction l with
  | nil => intro c h; simp [List.takeWhile] at h
  | cons x t ih =>
    intro c h
    by_cases hx : p x
    · rw [List.takeWhile_cons_of_pos hx] at h
      rcases List.mem_cons.1 h with rfl | h2
      · exact hx
      · exact ih c h2
    · rw [List.takeWhile_cons_of_neg hx] at h
      simp at h

/-- Maximal munch: a run of `p`-characters followed by a non-`p` head is
exactly what `takeWhile`/`dropWhile` split off. -/
theorem munch (p : Char → Bool) :
    ∀ (a b : Str), (∀ c ∈ a, p c = true) → (∀ c, b.head? = some c → p c = false) →
      (a ++ b).takeWhile p = a ∧ (a ++ b).dropWhile p = b := by
  intro a
  induction a with
  | nil =>
    intro b _ hb
    cases b with
    | nil => simp [List.takeWhile, List.dropWhile]
    | cons x t =>
      have hx : p x = false := hb x rfl
      refine ⟨?_, ?_⟩
      · simp only [List.nil_append]
        rw [List.takeWhile_cons_of_neg (by simp [hx])]
      · simp only [List.nil_append]
        rw [List.dropWhile_cons_of_neg (by simp [hx])]
  | cons x a ih =>
    intro b ha hb
    have hx : p x = true := ha x (List.mem_cons_self x a)
    have hrec := ih b (fun c hc => ha c (List.mem_cons_of_mem x hc)) hb
    constructor
    · rw [List.cons_append, List.takeWhile_cons_of_pos hx, hrec.1]
    · rw [List.cons_append, List.dropWhile_cons_of_pos hx, hrec.2]

theorem dropWhile_all_append (p : Char → Bool) :
    ∀ (a z : Str), (∀ c ∈ a, p c = true) → (a ++ z).dropWhile p = z.dropWhile p := by
  intro a
  induction a with
  | nil => intro z _; simp
  | cons x a ih =>
    intro z ha
    rw [List.cons_append, List.dropWhile_cons_of_pos (ha x (List.mem_cons_self x a))]
    exact ih z fun c hc => ha c (List.mem_cons_of_mem x hc)

theorem dropWhile_append_of_ne_nil (p : Char → Bool) :
    ∀ (l t : Str) (c : Char) (cs : Str), l.dropWhile p = c :: cs →
      (l ++ t).dropWhile p = c :: (cs ++ t) := by
  intro l
  induction l with
  | nil => intro t c cs h; simp [List.dropWhile] at h
  | cons x l ih =>
    intro t c cs h
    by_cases hx : p x
    · rw [List.dropWhile_cons_of_pos hx] at h
      rw [List.cons_append, List.dropWhile_cons_of_pos hx]
      exact ih t c cs h
    · rw [List.dropWhile_cons_of_neg hx] at h
      cases h
      rw [List.cons_append, List.dropWhile_cons_of_neg hx]

theorem takeWhile_append_of_ne_nil (p : Char → Bool) :
    ∀ (l t : Str) (c : Char) (cs : Str), l.dropWhile p = c :: cs →
      (l ++ t).takeWhile p = l.takeWhile p := by
  intro l
  induction l with
  | nil => intro t c cs h; simp [List.dropWhile] at h
  | cons x l ih =>
    intro t c cs h
    by_cases hx : p x
    · rw [List.dropWhile_cons_of_pos hx] at h
      rw [List.cons_append, List.takeWhile_cons_of_pos hx, List.takeWhile_cons_of_pos hx,
        ih t c cs h]
    · rw [List.dropWhile_cons_of_neg hx] at h
      cases h
      rw [List.cons_append, List.takeWhile_cons_of_neg hx, List.takeWhile_cons_of_neg hx]

theorem length_le_takeWhile_append (p : Char → Bool) :
    ∀ (a b : Str), (∀ c ∈ a, p c = true) → a.length ≤ ((a ++ b).takeWhile p).length := by
  intro a
  induction a with
  | nil => intro b _; simp
  | cons x a ih =>
    intro b ha
    rw [List.cons_append, List.takeWhile_cons_of_pos (ha x (List.mem_cons_self x a))]
    simpa using ih b fun c hc => ha c (List.mem_cons_of_mem x hc)

/-! ## A model of `html.unescape` (line 125)

`html.unescape` is a Python stdlib call; it is modelled by a left-to-right
scanner that decodes `&name;`, `&#digits;` and `&#x hexdigits;` references
over a table of the standard named entities, and leaves any other text —
including a `&` that does not begin a well-formed reference — unchanged.
Whitespace never occurs inside a reference, which is the only property of
the model the normalization proofs rely on. -/

/-- Characters that may occur in an entity reference body (before `;`). -/
def isEntityChar (c : Char) : Bool := c.isAlphanum || c = '#'

/-- The named entities of the model (body without `&` and `;`). -/
def namedEntity (n : Str) : Option Char :=
  if n = "amp".toList then some '&'
  else if n = "lt".toList then some '<'
  else if n = "gt".toList then some '>'
  else if n = "quot".toList then some (Char.ofNat 34)
  else if n = "apos".toList then some (Char.ofNat 39)
  else if n = "nbsp".toList then some (Char.ofNat 160)
  else none

def hexDigitVal (c : Char) : Option Nat :=
  if c.isDigit then some (c.toNat - 48)
  else if 'a' ≤ c ∧ c ≤ 'f' then some (c.toNat - 87)
  else if 'A' ≤ c ∧ c ≤ 'F' then some (c.toNat - 55)
  else none

def decDigitsVal (l : Str) : Option Nat :=
  l.foldl (fun acc c => acc.bind fun a =>
    if c.isDigit then some (a * 10 + (c.toNat - 48)) else none) (some 0)

def hexDigitsVal (l : Str) : Option Nat :=
  l.foldl (fun acc c => acc.bind fun a => (hexDigitVal c).map fun v => a * 16 + v) (some 0)

def charOfNat? (n : Nat) : Option Char :=
  if _h : n.isValidChar then some (Char.ofNat n) else none

/-- Decode an entity body (text between `&` and `;`). -/
def decodeBody (body : Str) : Option Char :=
  match body with
  | '#' :: rest =>
    match rest with
    | 'x' :: ds => if ds = [] then none else (hexDigitsVal ds).bind charOfNat?
    | 'X' :: ds => if ds = [] then none else (hexDigitsVal ds).bind charOfNat?
    | ds => if ds = [] then none else (decDigitsVal ds).bind charOfNat?
  | name => namedEntity name

/-- Try to read one entity reference at the head of `rest` (the text right
after a `&`): the body runs over entity characters and must be closed by
`;`. Returns the decoded character and the rest of the input. -/
def tryEntity (rest : Str) : Option (Char × Str) :=
  match rest.dropWhile isEntityChar with
  | x :: r =>
    if x = ';' then (decodeBody (rest.takeWhile isEntityChar)).map fun c => (c, r)
    else none
  | [] => none

theorem dropWhile_length_le (p : Char → Bool) : ∀ l : Str, (l.dropWhile p).length ≤ l.length := by
  intro l
  induction l with
  | nil => simp [List.dropWhile]
  | cons x t ih =>
    by_cases hx : p x
    · rw [List.dropWhile_cons_of_pos hx]
      exact Nat.le_succ_of_le ih
    · rw [List.dropWhile_cons_of_neg hx]

theorem ws_not_entity {c : Char} (h : isWS c = true) : isEntityChar c = false := by
  cases he : isEntityChar c
  · rfl
  · exfalso
    simp only [isEntityChar, Bool.or_eq_true, decide_eq_true_eq] at he
    rcases he with he | he
    · have hd : c.isAlpha = true ∨ c.isDigit = true := by
        simpa [Char.isAlphanum, Bool.or_eq_true] using he
      rcases hd with hd | hd
      · rw [word_not_ws (by simp [isWordChar, Char.isAlphanum, hd])] at h
        exact Bool.false_ne_true h
      · rw [digit_not_ws hd] at h; exact Bool.false_ne_true h
    · subst he; simp [isWS] at h

theorem ws_ne_semicolon {c : Char} (h : isWS c = true) : ¬c = ';' := by
  intro hc; subst hc; simp [isWS] at h

theorem tryEntity_some_length {rest : Str} {c : Char} {r : Str}
    (h : tryEntity rest = some (c, r)) : r.length < rest.length := by
  unfold tryEntity at h
  rcases hd : rest.dropWhile isEntityChar with _ | ⟨x, r2⟩
  · rw [hd] at h; simp at h
  · rw [hd] at h
    have h2 : (if x = ';' then
        (decodeBody (rest.takeWhile isEntityChar)).map fun c => (c, r2)
      else none) = some (c, r) := h
    by_cases hx : x = ';'
    · rw [if_pos hx] at h2
      rcases hde : decodeBody (rest.takeWhile isEntityChar) with _ | d
      · rw [hde] at h2; simp at h2
      · rw [hde] at h2
        simp at h2
        obtain ⟨rfl, rfl⟩ := h2
        have hlen : (rest.dropWhile isEntityChar).length ≤ rest.length :=
          dropWhile_length_le isEntityChar rest
        rw [hd] at hlen
        simp only [List.length_cons] at hlen
        omega
    · rw [if_neg hx] at h2
      simp at h2

/-- The entity-reference parse only depends on the input up to the closing
`;`: appending more text after a successful parse appends to the leftover. -/
theorem tryEntity_append_some {rest : Str} {c : Char} {r : Str} (t : Str)
    (h : tryEntity rest = some (c, r)) : tryEntity (rest ++ t) = some (c, r ++ t) := by
  unfold tryEntity at h ⊢
  rcases hd : rest.dropWhile isEntityChar with _ | ⟨x, r2⟩
  · rw [hd] at h; simp at h
  · rw [hd] at h
    have h2 : (if x = ';' then
        (decodeBody (rest.takeWhile isEntityChar)).map fun c => (c, r2)
      else none) = some (c, r) := h
    by_cases hx : x = ';'
    · rw [if_pos hx] at h2
      have hd2 := dropWhile_append_of_ne_nil isEntityChar rest t x r2 hd
      have ht2 := takeWhile_append_of_ne_nil isEntityChar rest t x r2 hd
      rw [hd2]
      show (if x = ';' then
          (decodeBody ((rest ++ t).takeWhile isEntityChar)).map fun c => (c, r2 ++ t)
        else none) = some (c, r ++ t)
      rw [if_pos hx, ht2]
      rcases hde : decodeBody (rest.takeWhile isEntityChar) with _ | d
      · rw [hde] at h2; simp at h2
      · rw [hde] at h2
        simp at h2
        obtain ⟨rfl, rfl⟩ := h2
        simp
    · rw [if_neg hx] at h2
      simp at h2

/-- Appending all-whitespace text to a failed entity parse keeps it failed:
whitespace is neither an entity character nor `;`. -/
theorem tryEntity_append_none_ws {rest : Str} (t : Str)
    (h : tryEntity rest = none) (ht : ∀ c ∈ t, isWS c = true) :
    tryEntity (rest ++ t) = none := by
  unfold tryEntity at h ⊢
  rcases hd : rest.dropWhile isEntityChar with _ | ⟨x, r2⟩
  · -- all of rest is entity characters; appended whitespace cannot close it
    have hall : ∀ c ∈ rest, isEntityChar c = true := by
      intro c hc
      have hrw : rest.takeWhile isEntityChar = rest := by
        have hsplit := rest.takeWhile_append_dropWhile (p := isEntityChar)
        rw [hd, List.append_nil] at hsplit
        exact hsplit
      exact mem_takeWhile_pred isEntityChar rest c (by rw [hrw]; exact hc)
    rw [dropWhile_all_append isEntityChar rest t hall]
    rcases t with _ | ⟨y, t2⟩
    · rfl
    · have hy : isWS y = true := ht y (List.mem_cons_self y t2)
      rw [List.dropWhile_cons_of_neg (by simp [ws_not_entity hy])]
      show (if y = ';' then
          (decodeBody ((rest ++ y :: t2).takeWhile isEntityChar)).map fun c => (c, t2)
        else none) = none
      rw [if_neg (ws_ne_semicolon hy)]
  · rw [hd] at h
    have h2 : (if x = ';' then
        (decodeBody (rest.takeWhile isEntityChar)).map fun c => (c, r2)
      else none) = none := h
    have hd2 := dropWhile_append_of_ne_nil isEntityChar rest t x r2 hd
    rw [hd2]
    show (if x = ';' then
        (decodeBody ((rest ++ t).takeWhile isEntityChar)).map fun c => (c, r2 ++ t)
      else none) = none
    by_cases hx : x = ';'
    · rw [if_pos hx] at h2
      have ht2 := takeWhile_append_of_ne_nil isEntityChar rest t x r2 hd
      rw [if_pos hx, ht2]
      rcases hde : decodeBody (rest.takeWhile isEntityChar) with _ | d
      · simp
      · rw [hde] at h2; simp at h2
    · rw [if_neg hx]

/-- The unescape scanner: a `&` heads an entity-reference attempt; any
other character passes through. `fuel` only bounds recursion (the entity
parse may skip ahead past the closing `;`); `unescapeL` supplies enough. -/
def unescapeAux : Nat → Str → Str
  | 0, s => s
  | _ + 1, [] => []
  | fuel + 1, c :: rest =>
    if c = '&' then
      match tryEntity rest with
      | some p => p.1 :: unescapeAux fuel p.2
      | none => c :: unescapeAux fuel rest
    else c :: unescapeAux fuel rest

/-- Model of Python `html.unescape` (see the section comment). -/
def unescapeL (s : Str) : Str := unescapeAux s.length s

theorem unescapeAux_congr : ∀ (f1 f2 : Nat) (s : Str), s.length ≤ f1 → s.length ≤ f2 →
    unescapeAux f1 s = unescapeAux f2 s := by
  intro f1
  induction f1 with
  | zero =>
    intro f2 s h1 _
    have : s = [] := List.length_eq_zero.mp (Nat.le_zero.mp h1)
    subst this
    cases f2 <;> rfl
  | succ f1 ih =>
    intro f2 s h1 h2
    cases s with
    | nil => cases f2 <;> rfl
    | cons c rest =>
      cases f2 with
      | zero => exact absurd h2 (by simp)
      | succ f2 =>
        simp only [List.length_cons, Nat.succ_le_succ_iff] at h1 h2
        simp only [unescapeAux]
        by_cases hc : c = '&'
        · rw [if_pos hc, if_pos hc]
          rcases he : tryEntity rest with _ | p
          · show c :: unescapeAux f1 rest = c :: unescapeAux f2 rest
            rw [ih f2 rest h1 h2]
          · show p.1 :: unescapeAux f1 p.2 = p.1 :: unescapeAux f2 p.2
            have hlt := tryEntity_some_length (c := p.1) (r := p.2) (by rw [he])
            rw [ih f2 p.2 (le_of_lt (lt_of_lt_of_le hlt h1))
              (le_of_lt (lt_of_lt_of_le hlt h2))]
        · rw [if_neg hc, if_neg hc, ih f2 rest h1 h2]

theorem unescapeL_nil : unescapeL [] = [] := rfl

theorem unescapeL_cons_of_ne (c : Char) (s : Str) (hc : ¬c = '&') :
    unescapeL (c :: s) = c :: unescapeL s := by
  simp only [unescapeL, List.length_cons, unescapeAux]
  rw [if_neg hc]

theorem unescapeL_cons_amp_some {rest : Str} {d : Char} {r : Str}
    (h : tryEntity rest = some (d, r)) : unescapeL ('&' :: rest) = d :: unescapeL r := by
  simp only [unescapeL, List.length_cons, unescapeAux]
  rw [if_pos trivial, h]
  show d :: unescapeAux rest.length r = d :: unescapeAux r.length r
  rw [unescapeAux_congr rest.length r.length r (le_of_lt (tryEntity_some_length h)) le_rfl]

theorem unescapeL_cons_amp_none {rest : Str} (h : tryEntity rest = none) :
    unescapeL ('&' :: rest) = '&' :: unescapeL rest := by
  simp only [unescapeL, List.length_cons, unescapeAux]
  rw [if_pos trivial, h]

/-- Whitespace passes through the scanner unchanged. -/
theorem unescapeL_ws (t : Str) (ht : ∀ c ∈ t, isWS c = true) : unescapeL t = t := by
  induction t with
  | nil => rfl
  | cons c rest ih =>
    have hc : ¬c = '&' := by
      intro hcon
      have := ht c (List.mem_cons_self c rest)
      rw [hcon] at this
      simp [isWS] at this
    rw [unescapeL_cons_of_ne c rest hc, ih fun d hd => ht d (List.mem_cons_of_mem c hd)]

/-- Leading whitespace commutes out of the scanner. -/
theorem unescapeL_ws_append (a s : Str) (ha : ∀ c ∈ a, isWS c = true) :
    unescapeL (a ++ s) = a ++ unescapeL s := by
  induction a with
  | nil => simp
  | cons c rest ih =>
    have hc : ¬c = '&' := by
      intro hcon
      have := ha c (List.mem_cons_self c rest)
      rw [hcon] at this
      simp [isWS] at this
    rw [List.cons_append, unescapeL_cons_of_ne c (rest ++ s) hc,
      ih fun d hd => ha d (List.mem_cons_of_mem c hd), List.cons_append]

/-- Trailing whitespace commutes out of the scanner: a reference never
contains whitespace, so the scan of `s` is unaffected by it. -/
theorem unescapeL_append_ws (t : Str) (ht : ∀ c ∈ t, isWS c = true) :
    ∀ s : Str, unescapeL (s ++ t) = unescapeL s ++ t := by
  have key : ∀ (n : Nat) (s : Str), s.length ≤ n → unescapeL (s ++ t) = unescapeL s ++ t := by
    intro n
    induction n with
    | zero =>
      intro s hs
      have : s = [] := List.length_eq_zero.mp (Nat.le_zero.mp hs)
      subst this
      simpa using unescapeL_ws t ht
    | succ n ih =>
      intro s hs
      cases s with
      | nil => simpa using unescapeL_ws t ht
      | cons c rest =>
        simp only [List.length_cons, Nat.succ_le_succ_iff] at hs
        by_cases hc : c = '&'
        · subst hc
          rcases he : tryEntity rest with _ | ⟨d, r⟩
          · rw [List.cons_append, unescapeL_cons_amp_none (tryEntity_append_none_ws t he ht),
              unescapeL_cons_amp_none he, ih rest hs, List.cons_append]
          · have hlt := tryEntity_some_length he
            rw [List.cons_append, unescapeL_cons_amp_some (tryEntity_append_some t he),
              unescapeL_cons_amp_some he, ih r (le_of_lt (lt_of_lt_of_le hlt hs)),
              List.cons_append]
        · rw [List.cons_append, unescapeL_cons_of_ne c (rest ++ t) hc,
            unescapeL_cons_of_ne c rest hc, ih rest hs, List.cons_append]
  intro s
  exact key s.length s le_rfl

/-! ## `.strip()`, `.replace` and the normalization of line 124–125 -/

/-- Python `str.strip()` over the whitespace class. -/
def stripStr (s : Str) : Str :=
  ((s.dropWhile isWS).reverse.dropWhile isWS).reverse

/-- Python `.replace(chr(10), chr(32))`: newline to one space, pointwise. -/
def replaceNL (s : Str) : Str := s.map fun c => if c = '\n' then ' ' else c

/-- The description normalization exactly as line 124–125 computes it:
`strip`, then `unescape`, then newline replacement, then `strip` again. -/
def normalizeCode (s : Str) : Str := stripStr (replaceNL (unescapeL (stripStr s)))

/-- The normalization as §4.2 step 3 of the spec words it: unescape,
replace newlines, trim — without the code's initial `strip()`. -/
def normalizeSpec (s : Str) : Str := stripStr (replaceNL (unescapeL s))

theorem replaceNL_ws {a : Str} (ha : ∀ c ∈ a, isWS c = true) :
    ∀ c ∈ replaceNL a, isWS c = true := by
  intro c hc
  rcases List.mem_map.1 hc with ⟨d, hd, rfl⟩
  by_cases hdn : d = '\n'
  · simp [hdn, isWS]
  · simpa [hdn] using ha d hd

theorem stripStr_ws_pad {a b : Str} (x : Str) (ha : ∀ c ∈ a, isWS c = true)
    (hb : ∀ c ∈ b, isWS c = true) : stripStr (a ++ x ++ b) = stripStr x := by
  unfold stripStr
  rw [List.append_assoc, dropWhile_all_append isWS a (x ++ b) ha]
  rcases hx : x.dropWhile isWS with _ | ⟨y, ys⟩
  · -- x is all whitespace: both sides strip to []
    have hxall : ∀ c ∈ x, isWS c = true := by
      intro c hc
      have hsplit := x.takeWhile_append_dropWhile (p := isWS)
      rw [hx, List.append_nil] at hsplit
      exact mem_takeWhile_pred isWS x c (by rw [hsplit]; exact hc)
    rw [dropWhile_all_append isWS x b hxall]
    have hb2 : b.dropWhile isWS = [] := by
      rcases hb2 : b.dropWhile isWS with _ | ⟨z, zs⟩
      · rfl
      · exfalso
        have hz : isWS z = false := dropWhile_head_false isWS b z (by rw [hb2]; rfl)
        have hsub : z ∈ b := by
          have hsplit := b.takeWhile_append_dropWhile (p := isWS)
          rw [hb2] at hsplit
          exact hsplit ▸ List.mem_append_right _ (List.mem_cons_self z zs)
        rw [hb z hsub] at hz
        exact Bool.true_eq_false.mp hz
    rw [hb2]
  · -- the stripped core is nonempty: the trailing pad falls to the right
    rw [dropWhile_append_of_ne_nil isWS x b y ys hx]
    show ((y :: (ys ++ b)).reverse.dropWhile isWS).reverse =
      ((y :: ys).reverse.dropWhile isWS).reverse
    rw [List.reverse_cons, List.reverse_append, List.reverse_cons,
      List.append_assoc, dropWhile_all_append isWS b.reverse (ys.reverse ++ [y])
        (fun c hc => hb c (List.mem_reverse.mp hc))]

/-- Every string is its stripped core padded by whitespace. -/
theorem stripStr_decomp (s : Str) : ∃ a b, s = a ++ stripStr s ++ b ∧
    (∀ c ∈ a, isWS c = true) ∧ (∀ c ∈ b, isWS c = true) := by
  refine ⟨s.takeWhile isWS, ((s.dropWhile isWS).reverse.takeWhile isWS).reverse, ?_, ?_, ?_⟩
  · conv_lhs => rw [← s.takeWhile_append_dropWhile (p := isWS)]
    rw [List.append_assoc]
    congr 1
    conv_lhs => rw [← (s.dropWhile isWS).reverse_reverse,
      ← (s.dropWhile isWS).reverse.takeWhile_append_dropWhile (p := isWS)]
    rw [List.reverse_append]
    rfl
  · exact fun c hc => mem_takeWhile_pred isWS s c hc
  · intro c hc
    exact mem_takeWhile_pred isWS _ c (List.mem_reverse.mp hc)

/-- The initial `strip()` of line 124 is redundant: the code's
normalization agrees with the spec's unescape–replace–trim order. -/
theorem normalizeCode_eq_normalizeSpec (s : Str) : normalizeCode s = normalizeSpec s := by
  obtain ⟨a, b, hs, ha, hb⟩ := stripStr_decomp s
  unfold normalizeCode normalizeSpec
  conv_rhs => rw [hs]
  rw [List.append_assoc, unescapeL_ws_append a (stripStr s ++ b) ha,
    unescapeL_append_ws b hb (stripStr s)]
  unfold replaceNL
  rw [List.map_append, List.map_append, ← List.append_assoc]
  exact (stripStr_ws_pad _ (replaceNL_ws ha) (replaceNL_ws hb)).symm

/-! ## The regular-expression searches of lines 109, 129 and the split of line 134

`re.search` scans left to right and returns the first position where the
pattern matches; both patterns here are deterministic once the position is
fixed (greedy repetition never has to backtrack: shortening any `\d+` or
dropping the fraction leaves a digit or a dot where whitespace or `|` is
required), so each pattern is embedded as a match-at-front function plus
the generic position scan `reSearch`. -/

/-- Greedy match of `CVE-\d{4}-\d{4,}` at the front of `s` (line 109). -/
def matchCveAt : Str → Option Str
  | c1 :: c2 :: c3 :: c4 :: d1 :: d2 :: d3 :: d4 :: c5 :: rest =>
    if c1 = 'C' ∧ c2 = 'V' ∧ c3 = 'E' ∧ c4 = '-' ∧ c5 = '-' ∧ d1.isDigit = true ∧
        d2.isDigit = true ∧ d3.isDigit = true ∧ d4.isDigit = true then
      if 4 ≤ (rest.takeWhile Char.isDigit).length then
        some (c1 :: c2 :: c3 :: c4 :: d1 :: d2 :: d3 :: d4 :: c5 ::
          rest.takeWhile Char.isDigit)
      else none
    else none
  | _ => none

/-- `re.search`: try the pattern at every position, leftmost match wins. -/
def reSearch {α : Type} (m : Str → Option α) : Str → Option α
  | [] => m []
  | c :: t =>
    match m (c :: t) with
    | some r => some r
    | none => reSearch m t

/-- Line 109–110: the identifier is the first `CVE-\d{4}-\d{4,}` match in
the title, `"N/A"` when there is none. -/
def cveNumberOf (title : Str) : Str := (reSearch matchCveAt title).getD naStr

/-- The tail `\s*\|\s*(\w+)` of the severity pattern, after group 1. -/
def sevTail (g : Str) (r4 : Str) : Option Str :=
  match r4.dropWhile isWS with
  | x :: r6 =>
    if x = '|' then
      match r6.dropWhile isWS with
      | w :: _ => if isWordChar w then some g else none
      | [] => none
    else none
  | [] => none

/-- The optional fraction `(\.\d+)?` after the integer part `d`. -/
def sevFrac (d : Str) (r2 : Str) : Option Str :=
  match r2 with
  | c :: r3 =>
    if c = '.' then
      let fd := r3.takeWhile Char.isDigit
      if fd = [] then sevTail d r2 else sevTail (d ++ c :: fd) (r3.dropWhile Char.isDigit)
    else sevTail d r2
  | [] => sevTail d r2

/-- `\s*(\d+(\.\d+)?)` right after the literal `Severity:`. -/
def sevNum (r0 : Str) : Option Str :=
  let r1 := r0.dropWhile isWS
  let d := r1.takeWhile Char.isDigit
  if d = [] then none else sevFrac d (r1.dropWhile Char.isDigit)

/-- Greedy match of `Severity:\s*(\d+(\.\d+)?)\s*\|\s*(\w+)` at the front,
returning group 1 (line 129–130). -/
def matchSeverityAt : Str → Option Str
  | c1 :: c2 :: c3 :: c4 :: c5 :: c6 :: c7 :: c8 :: c9 :: r0 =>
    if c1 = 'S' ∧ c2 = 'e' ∧ c3 = 'v' ∧ c4 = 'e' ∧ c5 = 'r' ∧ c6 = 'i' ∧ c7 = 't' ∧
        c8 = 'y' ∧ c9 = ':' then sevNum r0
    else none
  | _ => none

/-- Line 130: group 1 of the first severity match, `None` when absent. -/
def severityOf (desc : Str) : Option Str := reSearch matchSeverityAt desc

/-- Python `title.split(sep, 1)[1]` for `sep = "- "`: everything after the
first occurrence of the separator, `none` when the separator is absent. -/
def splitOnSep : Str → Option Str
  | [] => none
  | c :: t => if c = '-' ∧ t.head? = some ' ' then some t.tail else splitOnSep t

/-- Line 134: the name is the remainder after the first `"- "`, else `"N/A"`. -/
def nameOf (title : Str) : Str := (splitOnSep title).getD naStr

/-! ## Declarative characterization of the `"- "` split (C7) -/

/-- `"- " in s`: the separator occurs somewhere in `s`. -/
def SepIn (s : Str) : Prop := ∃ x y, s = x ++ '-' :: ' ' :: y

theorem sepIn_cons_iff {c : Char} {t : Str}
    (hcond : ¬(c = '-' ∧ t.head? = some ' ')) : SepIn (c :: t) ↔ SepIn t := by
  constructor
  · rintro ⟨x, y, hxy⟩
    cases x with
    | nil =>
      exfalso
      simp only [List.nil_append, List.cons.injEq] at hxy
      exact hcond ⟨hxy.1, by rw [hxy.2]; rfl⟩
    | cons x0 x' =>
      simp only [List.cons_append, List.cons.injEq] at hxy
      exact ⟨x', y, hxy.2⟩
  · rintro ⟨x, y, hxy⟩
    exact ⟨c :: x, y, by rw [List.cons_append, hxy]⟩

theorem splitOnSep_eq_none_iff : ∀ s : Str, splitOnSep s = none ↔ ¬SepIn s := by
  intro s
  induction s with
  | nil =>
    simp only [splitOnSep, true_iff]
    rintro ⟨x, y, hxy⟩
    exact absurd hxy (by simp)
  | cons c t ih =>
    by_cases hcond : c = '-' ∧ t.head? = some ' '
    · rw [splitOnSep, if_pos hcond]
      obtain ⟨rfl, hh⟩ := hcond
      cases t with
      | nil => simp at hh
      | cons t0 t' =>
        simp only [List.head?_cons, Option.some.injEq] at hh
        subst hh
        constructor
        · intro h
          simp at h
        · intro h
          exact absurd ⟨[], t', by rfl⟩ h
    · rw [splitOnSep, if_neg hcond, ih, sepIn_cons_iff hcond]

theorem splitOnSep_eq_some_iff : ∀ (s b : Str), splitOnSep s = some b ↔
    ∃ a, s = a ++ '-' :: ' ' :: b ∧ ¬SepIn a := by
  intro s
  induction s with
  | nil =>
    intro b
    constructor
    · intro h
      exact absurd h (by simp [splitOnSep])
    · rintro ⟨a, hxy, -⟩
      exact absurd hxy (by simp)
  | cons c t ih =>
    intro b
    by_cases hcond : c = '-' ∧ t.head? = some ' '
    · rw [splitOnSep, if_pos hcond]
      obtain ⟨rfl, hh⟩ := hcond
      cases t with
      | nil => simp at hh
      | cons t0 t' =>
        simp only [List.head?_cons, Option.some.injEq] at hh
        subst hh
        constructor
        · intro hb
          simp only [List.tail_cons, Option.some.injEq] at hb
          subst hb
          refine ⟨[], rfl, ?_⟩
          rintro ⟨x, y, hxy⟩
          exact absurd hxy (by simp)
        · rintro ⟨a, hxy, hna⟩
          cases a with
          | nil =>
            simp only [List.nil_append, List.cons.injEq] at hxy
            simp [hxy.2.2]
          | cons a0 a' =>
            simp only [List.cons_append, List.cons.injEq] at hxy
            obtain ⟨rfl, haxy⟩ := hxy
            cases a' with
            | nil =>
              simp only [List.nil_append, List.cons.injEq] at haxy
              exact absurd haxy.1 (by decide)
            | cons a1 a'' =>
              simp only [List.cons_append, List.cons.injEq] at haxy
              exact absurd ⟨[], a'', by rw [← haxy.1]; rfl⟩ hna
    · rw [splitOnSep, if_neg hcond, ih b]
      constructor
      · rintro ⟨a', hxy, hna⟩
        refine ⟨c :: a', by rw [List.cons_append, hxy], ?_⟩
        rintro ⟨x, y, hxy2⟩
        cases x with
        | nil =>
          simp only [List.nil_append, List.cons.injEq] at hxy2
          refine hcond ⟨hxy2.1, ?_⟩
          rw [hxy, hxy2.2]
          rfl
        | cons x0 x' =>
          simp only [List.cons_append, List.cons.injEq] at hxy2
          exact hna ⟨x', y, hxy2.2⟩
      · rintro ⟨a, hxy, hna⟩
        cases a with
        | nil =>
          exfalso
          simp only [List.nil_append, List.cons.injEq] at hxy
          exact hcond ⟨hxy.1, by rw [hxy.2]; rfl⟩
        | cons a0 a' =>
          simp only [List.cons_append, List.cons.injEq] at hxy
          refine ⟨a', hxy.2, fun hsep => hna ?_⟩
          obtain ⟨x, y, hxy2⟩ := hsep
          exact ⟨a0 :: x, y, by rw [List.cons_append, hxy2]⟩

instance (s : Str) : Decidable (SepIn s) :=
  decidable_of_iff ((splitOnSep s).isSome = true) (by
    constructor
    · intro h
      rcases hb : splitOnSep s with _ | b
      · rw [hb] at h; simp at h
      · obtain ⟨a, hxy, -⟩ := (splitOnSep_eq_some_iff s b).1 hb
        exact ⟨a, b, hxy⟩
    · intro h
      rcases hb : splitOnSep s with _ | b
      · exact absurd h ((splitOnSep_eq_none_iff s).1 hb)
      · rfl)

/-! ## Declarative characterization of `CVE-\d{4}-\d{4,}` (C4) -/

/-- `m` is a full match of `CVE-\d{4}-\d{4,}`. -/
def IsCveId (m : Str) : Prop :=
  ∃ (d1 d2 d3 d4 : Char) (ds : Str),
    m = 'C' :: 'V' :: 'E' :: '-' :: d1 :: d2 :: d3 :: d4 :: '-' :: ds ∧
    d1.isDigit = true ∧ d2.isDigit = true ∧ d3.isDigit = true ∧ d4.isDigit = true ∧
    4 ≤ ds.length ∧ ∀ c ∈ ds, c.isDigit = true

/-- The pattern matches somewhere at or after position `i` of `s` — more
precisely, a match starts exactly at position `i`. -/
def HasCveAt (s : Str) (i : Nat) : Prop := ∃ m rest, s.drop i = m ++ rest ∧ IsCveId m

theorem matchCveAt_cons_eq (c1 c2 c3 c4 d1 d2 d3 d4 c5 : Char) (rest : Str) :
    matchCveAt (c1 :: c2 :: c3 :: c4 :: d1 :: d2 :: d3 :: d4 :: c5 :: rest) =
      if c1 = 'C' ∧ c2 = 'V' ∧ c3 = 'E' ∧ c4 = '-' ∧ c5 = '-' ∧ d1.isDigit = true ∧
          d2.isDigit = true ∧ d3.isDigit = true ∧ d4.isDigit = true then
        if 4 ≤ (rest.takeWhile Char.isDigit).length then
          some (c1 :: c2 :: c3 :: c4 :: d1 :: d2 :: d3 :: d4 :: c5 ::
            rest.takeWhile Char.isDigit)
        else none
      else none := rfl

theorem matchCveAt_eq_some_iff (s m : Str) : matchCveAt s = some m ↔
    ∃ rest, s = m ++ rest ∧ IsCveId m ∧ ∀ c, rest.head? = some c → c.isDigit = false := by
  constructor
  · intro h
    rcases s with _ | ⟨c1, _ | ⟨c2, _ | ⟨c3, _ | ⟨c4, _ | ⟨d1, _ | ⟨d2, _ | ⟨d3, _ |
      ⟨d4, _ | ⟨c5, rest⟩⟩⟩⟩⟩⟩⟩⟩⟩ <;>
      try exact Option.noConfusion (show (none : Option Str) = some m from h)
    rw [matchCveAt_cons_eq] at h
    by_cases hcond : c1 = 'C' ∧ c2 = 'V' ∧ c3 = 'E' ∧ c4 = '-' ∧ c5 = '-' ∧
        d1.isDigit = true ∧ d2.isDigit = true ∧ d3.isDigit = true ∧ d4.isDigit = true
    · rw [if_pos hcond] at h
      obtain ⟨rfl, rfl, rfl, rfl, rfl, hd1, hd2, hd3, hd4⟩ := hcond
      by_cases hlen : 4 ≤ (rest.takeWhile Char.isDigit).length
      · rw [if_pos hlen] at h
        simp only [Option.some.injEq] at h
        subst h
        refine ⟨rest.dropWhile Char.isDigit, ?_, ?_, ?_⟩
        · simp only [List.cons_append]
          congr 9
          exact (rest.takeWhile_append_dropWhile (p := Char.isDigit)).symm
        · exact ⟨d1, d2, d3, d4, rest.takeWhile Char.isDigit, rfl, hd1, hd2, hd3,
            hd4, hlen, fun c hc => mem_takeWhile_pred Char.isDigit rest c hc⟩
        · exact fun c hc => dropWhile_head_false Char.isDigit rest c hc
      · rw [if_neg hlen] at h
        simp at h
    · rw [if_neg hcond] at h
      simp at h
  · rintro ⟨rest, rfl, ⟨d1, d2, d3, d4, ds, rfl, hd1, hd2, hd3, hd4, hlen, hds⟩, hrest⟩
    have hmunch := munch Char.isDigit ds rest hds hrest
    simp only [List.cons_append]
    rw [matchCveAt_cons_eq, if_pos ⟨rfl, rfl, rfl, rfl, rfl, hd1, hd2, hd3, hd4⟩,
      hmunch.1, if_pos hlen]

/-- Any (not necessarily greedy) front match makes `matchCveAt` succeed. -/
theorem matchCveAt_isSome_of_front {s m rest : Str} (hs : s = m ++ rest)
    (hm : IsCveId m) : ∃ m2, matchCveAt s = some m2 := by
  obtain ⟨d1, d2, d3, d4, ds, rfl, hd1, hd2, hd3, hd4, hlen, hds⟩ := hm
  subst hs
  simp only [List.cons_append]
  rw [matchCveAt_cons_eq, if_pos ⟨rfl, rfl, rfl, rfl, rfl, hd1, hd2, hd3, hd4⟩]
  have hle := length_le_takeWhile_append Char.isDigit ds rest hds
  rw [if_pos (le_trans hlen hle)]
  exact ⟨_, rfl⟩

/-! ## Position lemmas for `reSearch` -/

theorem reSearch_eq_some {α : Type} (m : Str → Option α) :
    ∀ (s : Str) (r : α), reSearch m s = some r →
      ∃ i, m (s.drop i) = some r ∧ ∀ j < i, m (s.drop j) = none := by
  intro s
  induction s with
  | nil =>
    intro r h
    exact ⟨0, h, by omega⟩
  | cons c t ih =>
    intro r h
    rw [reSearch] at h
    rcases hm : m (c :: t) with _ | r2
    · rw [hm] at h
      obtain ⟨i, hi, hj⟩ := ih r h
      refine ⟨i + 1, by simpa using hi, ?_⟩
      intro j hj2
      cases j with
      | zero => exact hm
      | succ j => simpa using hj j (by omega)
    · rw [hm] at h
      simp only [Option.some.injEq] at h
      subst h
      exact ⟨0, hm, by omega⟩

theorem reSearch_eq_some_of_first {α : Type} (m : Str → Option α) :
    ∀ (s : Str) (r : α) (i : Nat), m (s.drop i) = some r → (∀ j < i, m (s.drop j) = none) →
      reSearch m s = some r := by
  intro s
  induction s with
  | nil =>
    intro r i hi _
    rw [List.drop_nil] at hi
    exact hi
  | cons c t ih =>
    intro r i hi hj
    rw [reSearch]
    cases i with
    | zero =>
      rw [List.drop_zero] at hi
      rw [hi]
    | succ i =>
      have h0 : m (c :: t) = none := by simpa using hj 0 (by omega)
      rw [h0]
      show reSearch m t = some r
      exact ih r i (by simpa using hi) fun j hlt => by simpa using hj (j + 1) (by omega)

theorem reSearch_eq_none {α : Type} (m : Str → Option α) :
    ∀ s : Str, reSearch m s = none → ∀ i, m (s.drop i) = none := by
  intro s
  induction s with
  | nil =>
    intro h i
    rw [List.drop_nil]
    exact h
  | cons c t ih =>
    intro h i
    rw [reSearch] at h
    rcases hm : m (c :: t) with _ | r2
    · rw [hm] at h
      cases i with
      | zero => exact hm
      | succ i => simpa using ih h i
    · rw [hm] at h
      simp at h

/-! ## Declarative characterization of the severity pattern (C6) -/

theorem ws_not_digit {c : Char} (h : isWS c = true) : c.isDigit = false := by
  cases hd : c.isDigit
  · rfl
  · rw [digit_not_ws hd] at h
    exact absurd h (by simp)

/-- `d` then an optional fraction `f` form the numeric group `\d+(\.\d+)?`. -/
def NumGroup (d f : Str) : Prop :=
  d ≠ [] ∧ (∀ c ∈ d, c.isDigit = true) ∧
    (f = [] ∨ ∃ fd, f = '.' :: fd ∧ fd ≠ [] ∧ ∀ c ∈ fd, c.isDigit = true)

/-- The pattern `Severity:\s*(\d+(\.\d+)?)\s*\|\s*(\w+)` matches at the
front of `s` with group 1 equal to `g`. -/
def SevAt (s g : Str) : Prop :=
  ∃ (a d f b cs : Str) (w : Char) (r : Str),
    s = 'S' :: 'e' :: 'v' :: 'e' :: 'r' :: 'i' :: 't' :: 'y' :: ':' ::
      (a ++ d ++ f ++ b ++ '|' :: (cs ++ w :: r)) ∧
    (∀ c ∈ a, isWS c = true) ∧ (∀ c ∈ b, isWS c = true) ∧ (∀ c ∈ cs, isWS c = true) ∧
    NumGroup d f ∧ isWordChar w = true ∧ g = d ++ f

theorem sevTail_eq_some_iff (g r4 g2 : Str) : sevTail g r4 = some g2 ↔
    g2 = g ∧ ∃ (b cs : Str) (w : Char) (r : Str), r4 = b ++ '|' :: (cs ++ w :: r) ∧
      (∀ c ∈ b, isWS c = true) ∧ (∀ c ∈ cs, isWS c = true) ∧ isWordChar w = true := by
  constructor
  · intro h
    unfold sevTail at h
    rcases hd : r4.dropWhile isWS with _ | ⟨x, r6⟩
    · rw [hd] at h
      exact Option.noConfusion h
    · rw [hd] at h
      have h2 : (if x = '|' then
          (match r6.dropWhile isWS with
            | w :: _ => if isWordChar w then some g else none
            | [] => none)
        else none) = some g2 := h
      by_cases hx : x = '|'
      · rw [if_pos hx] at h2
        rcases hd6 : r6.dropWhile isWS with _ | ⟨w, r7⟩
        · rw [hd6] at h2
          exact Option.noConfusion h2
        · rw [hd6] at h2
          have h3 : (if isWordChar w then some g else none) = some g2 := h2
          by_cases hw : isWordChar w
          · rw [if_pos hw] at h3
            simp only [Option.some.injEq] at h3
            subst h3
            subst hx
            refine ⟨rfl, r4.takeWhile isWS, r6.takeWhile isWS, w, r7, ?_, ?_, ?_, hw⟩
            · have e4 := r4.takeWhile_append_dropWhile (p := isWS)
              rw [hd] at e4
              have e6 := r6.takeWhile_append_dropWhile (p := isWS)
              rw [hd6] at e6
              rw [← e6, ← List.cons_append] at e4
              exact e4.symm
            · exact fun c hc => mem_takeWhile_pred isWS r4 c hc
            · exact fun c hc => mem_takeWhile_pred isWS r6 c hc
          · rw [if_neg hw] at h3
            exact Option.noConfusion h3
      · rw [if_neg hx] at h2
        exact Option.noConfusion h2
  · rintro ⟨hg, b, cs, w, r, rfl, hb, hcs, hw⟩
    rw [hg]
    unfold sevTail
    have hm4 := munch isWS b ('|' :: (cs ++ w :: r)) hb
      (fun c hc => by
        simp only [List.head?_cons, Option.some.injEq] at hc
        subst hc
        decide)
    rw [hm4.2]
    have hm6 := munch isWS cs (w :: r) hcs
      (fun c hc => by
        simp only [List.head?_cons, Option.some.injEq] at hc
        subst hc
        exact word_not_ws hw)
    show (if ('|' : Char) = '|' then
        (match (cs ++ w :: r).dropWhile isWS with
          | w2 :: _ => if isWordChar w2 then some g else none
          | [] => none)
      else none) = some g
    rw [if_pos rfl, hm6.2]
    show (if isWordChar w then some g else none) = some g
    rw [if_pos hw]

theorem sevFrac_cons_ne_dot (d : Str) (c : Char) (r3 : Str) (hc : ¬c = '.') :
    sevFrac d (c :: r3) = sevTail d (c :: r3) := by
  show (if c = '.' then
      if r3.takeWhile Char.isDigit = [] then sevTail d (c :: r3)
      else sevTail (d ++ c :: r3.takeWhile Char.isDigit) (r3.dropWhile Char.isDigit)
    else sevTail d (c :: r3)) = sevTail d (c :: r3)
  rw [if_neg hc]

theorem sevFrac_eq_some_iff (d r2 g : Str) : sevFrac d r2 = some g ↔
    ∃ (f b cs : Str) (w : Char) (r : Str), r2 = f ++ b ++ '|' :: (cs ++ w :: r) ∧
      (f = [] ∨ ∃ fd, f = '.' :: fd ∧ fd ≠ [] ∧ ∀ c ∈ fd, c.isDigit = true) ∧
      (∀ c ∈ b, isWS c = true) ∧ (∀ c ∈ cs, isWS c = true) ∧ isWordChar w = true ∧
      g = d ++ f := by
  constructor
  · intro h
    rcases r2 with _ | ⟨c, r3⟩
    · have h2 : sevTail d [] = some g := h
      obtain ⟨-, b, cs, w, r, hdec, -, -, -⟩ := (sevTail_eq_some_iff d [] g).1 h2
      exact absurd hdec (by cases b <;> simp)
    · have h2 : (if c = '.' then
          if r3.takeWhile Char.isDigit = [] then sevTail d (c :: r3)
          else sevTail (d ++ c :: r3.takeWhile Char.isDigit) (r3.dropWhile Char.isDigit)
        else sevTail d (c :: r3)) = some g := h
      by_cases hc : c = '.'
      · rw [if_pos hc] at h2
        by_cases hfd : r3.takeWhile Char.isDigit = []
        · rw [if_pos hfd] at h2
          obtain ⟨-, b, cs, w, r, hdec, hb, -, -⟩ := (sevTail_eq_some_iff d (c :: r3) g).1 h2
          exfalso
          cases b with
          | nil =>
            simp only [List.nil_append, List.cons.injEq] at hdec
            rw [hc] at hdec
            exact absurd hdec.1 (by decide)
          | cons b0 b' =>
            simp only [List.cons_append, List.cons.injEq] at hdec
            have := hb b0 (List.mem_cons_self b0 b')
            rw [← hdec.1, hc] at this
            exact absurd this (by decide)
        · rw [if_neg hfd] at h2
          obtain ⟨hg, b, cs, w, r, hdec, hb, hcs, hw⟩ :=
            (sevTail_eq_some_iff (d ++ c :: r3.takeWhile Char.isDigit)
              (r3.dropWhile Char.isDigit) g).1 h2
          refine ⟨c :: r3.takeWhile Char.isDigit, b, cs, w, r, ?_, ?_, hb, hcs, hw, ?_⟩
          · rw [List.cons_append, List.cons_append]
            congr 1
            rw [List.append_assoc, ← hdec]
            exact (r3.takeWhile_append_dropWhile (p := Char.isDigit)).symm
          · exact Or.inr ⟨r3.takeWhile Char.isDigit, by rw [hc], hfd,
              fun x hx => mem_takeWhile_pred Char.isDigit r3 x hx⟩
          · rw [hg]
      · rw [if_neg hc] at h2
        obtain ⟨hg, b, cs, w, r, hdec, hb, hcs, hw⟩ := (sevTail_eq_some_iff d (c :: r3) g).1 h2
        exact ⟨[], b, cs, w, r, by rw [List.nil_append, hdec], Or.inl rfl, hb, hcs, hw,
          by rw [hg, List.append_nil]⟩
  · rintro ⟨f, b, cs, w, r, rfl, hf, hb, hcs, hw, rfl⟩
    rcases hf with rfl | ⟨fd, rfl, hfd, hfdig⟩
    · -- no fraction: the head of b ++ '|' :: … is whitespace or the bar
      have htail : sevTail d (b ++ '|' :: (cs ++ w :: r)) = some d :=
        (sevTail_eq_some_iff d _ d).2 ⟨rfl, b, cs, w, r, rfl, hb, hcs, hw⟩
      rw [List.append_nil, List.nil_append]
      cases b with
      | nil =>
        rw [List.nil_append] at htail ⊢
        rw [sevFrac_cons_ne_dot d '|' (cs ++ w :: r) (by decide), htail]
      | cons b0 b' =>
        have hb0 : isWS b0 = true := hb b0 (List.mem_cons_self b0 b')
        have hb0d : ¬b0 = '.' := by
          intro hcon
          rw [hcon] at hb0
          exact absurd hb0 (by decide)
        rw [List.cons_append] at htail ⊢
        rw [sevFrac_cons_ne_dot d b0 (b' ++ '|' :: (cs ++ w :: r)) hb0d, htail]
    · -- fraction `.fd`: the digits of fd are taken greedily
      have hmunch := munch Char.isDigit fd (b ++ '|' :: (cs ++ w :: r)) hfdig
        (fun x hx => by
          cases b with
          | nil =>
            simp only [List.nil_append, List.head?_cons, Option.some.injEq] at hx
            subst hx
            decide
          | cons b0 b' =>
            simp only [List.cons_append, List.head?_cons, Option.some.injEq] at hx
            subst hx
            exact ws_not_digit (hb _ (List.mem_cons_self _ b')))
      have htail : sevTail (d ++ '.' :: fd) (b ++ '|' :: (cs ++ w :: r)) =
          some (d ++ '.' :: fd) :=
        (sevTail_eq_some_iff (d ++ '.' :: fd) _ (d ++ '.' :: fd)).2
          ⟨rfl, b, cs, w, r, rfl, hb, hcs, hw⟩
      rw [List.cons_append, List.cons_append, List.append_assoc]
      have h2 : sevFrac d ('.' :: (fd ++ (b ++ '|' :: (cs ++ w :: r)))) =
          if (fd ++ (b ++ '|' :: (cs ++ w :: r))).takeWhile Char.isDigit = [] then
            sevTail d ('.' :: (fd ++ (b ++ '|' :: (cs ++ w :: r))))
          else sevTail (d ++ '.' :: (fd ++ (b ++ '|' :: (cs ++ w :: r))).takeWhile Char.isDigit)
            ((fd ++ (b ++ '|' :: (cs ++ w :: r))).dropWhile Char.isDigit) := rfl
      rw [h2, hmunch.1, hmunch.2, if_neg hfd, htail]

theorem sevNum_eq_some_iff (r0 g : Str) : sevNum r0 = some g ↔
    ∃ (a d f b cs : Str) (w : Char) (r : Str),
      r0 = a ++ d ++ f ++ b ++ '|' :: (cs ++ w :: r) ∧ (∀ c ∈ a, isWS c = true) ∧
      (∀ c ∈ b, isWS c = true) ∧ (∀ c ∈ cs, isWS c = true) ∧ NumGroup d f ∧
      isWordChar w = true ∧ g = d ++ f := by
  constructor
  · intro h
    have h2 : (if (r0.dropWhile isWS).takeWhile Char.isDigit = [] then none
        else sevFrac ((r0.dropWhile isWS).takeWhile Char.isDigit)
          ((r0.dropWhile isWS).dropWhile Char.isDigit)) = some g := h
    by_cases hd : (r0.dropWhile isWS).takeWhile Char.isDigit = []
    · rw [if_pos hd] at h2
      exact Option.noConfusion h2
    · rw [if_neg hd] at h2
      obtain ⟨f, b, cs, w, r, hdec, hf, hb, hcs, hw, hg⟩ := (sevFrac_eq_some_iff _ _ g).1 h2
      refine ⟨r0.takeWhile isWS, (r0.dropWhile isWS).takeWhile Char.isDigit, f, b, cs, w, r,
        ?_, fun c hc => mem_takeWhile_pred isWS r0 c hc, hb, hcs,
        ⟨hd, fun c hc => mem_takeWhile_pred Char.isDigit _ c hc, hf⟩, hw, hg⟩
      rw [List.append_assoc] at hdec
      rw [List.append_assoc, List.append_assoc, List.append_assoc, ← hdec,
        (r0.dropWhile isWS).takeWhile_append_dropWhile (p := Char.isDigit),
        r0.takeWhile_append_dropWhile (p := isWS)]
  · rintro ⟨a, d, f, b, cs, w, r, hdec0, ha, hb, hcs, ⟨hdne, hddig, hf⟩, hw, hg⟩
    rcases d with _ | ⟨d0, d'⟩
    · exact absurd rfl hdne
    have hd0 : Char.isDigit d0 = true := hddig d0 (List.mem_cons_self d0 d')
    rw [List.append_assoc, List.append_assoc, List.append_assoc] at hdec0
    subst hdec0
    have hm1 := munch isWS a ((d0 :: d') ++ (f ++ (b ++ '|' :: (cs ++ w :: r)))) ha
      (fun c hc => by
        simp only [List.cons_append, List.head?_cons, Option.some.injEq] at hc
        subst hc
        exact digit_not_ws hd0)
    have hm2 := munch Char.isDigit (d0 :: d') (f ++ (b ++ '|' :: (cs ++ w :: r))) hddig
      (fun c hc => by
        rcases hf with rfl | ⟨fd, rfl, hfd, hfdig⟩
        · cases b with
          | nil =>
            simp only [List.nil_append, List.head?_cons, Option.some.injEq] at hc
            subst hc
            decide
          | cons b0 b' =>
            simp only [List.nil_append, List.cons_append, List.head?_cons,
              Option.some.injEq] at hc
            subst hc
            exact ws_not_digit (hb _ (List.mem_cons_self _ b'))
        · simp only [List.cons_append, List.head?_cons, Option.some.injEq] at hc
          subst hc
          decide)
    have h2 : sevNum (a ++ ((d0 :: d') ++ (f ++ (b ++ '|' :: (cs ++ w :: r))))) =
        (if ((a ++ ((d0 :: d') ++ (f ++ (b ++ '|' :: (cs ++ w :: r))))).dropWhile
            isWS).takeWhile Char.isDigit = [] then none
          else sevFrac (((a ++ ((d0 :: d') ++ (f ++ (b ++ '|' :: (cs ++ w :: r))))).dropWhile
              isWS).takeWhile Char.isDigit)
            (((a ++ ((d0 :: d') ++ (f ++ (b ++ '|' :: (cs ++ w :: r))))).dropWhile
              isWS).dropWhile Char.isDigit)) := rfl
    rw [h2, hm1.2, hm2.1, hm2.2, if_neg hdne]
    rw [(sevFrac_eq_some_iff (d0 :: d') (f ++ (b ++ '|' :: (cs ++ w :: r))) g)]
    exact ⟨f, b, cs, w, r, by rw [List.append_assoc], hf, hb, hcs, hw, hg⟩

theorem matchSeverityAt_cons_eq (c1 c2 c3 c4 c5 c6 c7 c8 c9 : Char) (r0 : Str) :
    matchSeverityAt (c1 :: c2 :: c3 :: c4 :: c5 :: c6 :: c7 :: c8 :: c9 :: r0) =
      if c1 = 'S' ∧ c2 = 'e' ∧ c3 = 'v' ∧ c4 = 'e' ∧ c5 = 'r' ∧ c6 = 'i' ∧ c7 = 't' ∧
          c8 = 'y' ∧ c9 = ':' then sevNum r0 else none := rfl

theorem matchSeverityAt_eq_some_iff (s g : Str) : matchSeverityAt s = some g ↔ SevAt s g := by
  constructor
  · intro h
    rcases s with _ | ⟨c1, _ | ⟨c2, _ | ⟨c3, _ | ⟨c4, _ | ⟨c5, _ | ⟨c6, _ | ⟨c7, _ |
      ⟨c8, _ | ⟨c9, r0⟩⟩⟩⟩⟩⟩⟩⟩⟩ <;>
      try exact Option.noConfusion (show (none : Option Str) = some g from h)
    rw [matchSeverityAt_cons_eq] at h
    by_cases hcond : c1 = 'S' ∧ c2 = 'e' ∧ c3 = 'v' ∧ c4 = 'e' ∧ c5 = 'r' ∧ c6 = 'i' ∧
        c7 = 't' ∧ c8 = 'y' ∧ c9 = ':'
    · rw [if_pos hcond] at h
      obtain ⟨rfl, rfl, rfl, rfl, rfl, rfl, rfl, rfl, rfl⟩ := hcond
      obtain ⟨a, d, f, b, cs, w, r, hdec, ha, hb, hcs, hng, hw, hg⟩ :=
        (sevNum_eq_some_iff r0 g).1 h
      exact ⟨a, d, f, b, cs, w, r, by rw [hdec], ha, hb, hcs, hng, hw, hg⟩
    · rw [if_neg hcond] at h
      exact Option.noConfusion h
  · rintro ⟨a, d, f, b, cs, w, r, rfl, ha, hb, hcs, hng, hw, hg⟩
    rw [matchSeverityAt_cons_eq,
      if_pos ⟨rfl, rfl, rfl, rfl, rfl, rfl, rfl, rfl, rfl⟩]
    exact (sevNum_eq_some_iff _ g).2 ⟨a, d, f, b, cs, w, r, rfl, ha, hb, hcs, hng, hw, hg⟩

/-! ## The detail page and the extraction of lines 122–127

A detail page is modelled as its table cells in document order, grouped by
row (the `td` elements sharing one parent `tr`): `find` scans cells row by
row for the first whose text equals `"Description"`; `find_next_sibling`
is the next cell of the same row; `.text` on its `None` result raises
`AttributeError`, modelled as `Except.error`. -/

def descLit : Str := "Description".toList

def descFallback : Str := "Description not available.".toList

structure DetailPage where
  rows : List (List Str)
deriving DecidableEq

/-- `find` inside one row: the first `"Description"` cell and what follows
it in the row (`none` when the row has no such cell). -/
def findDescInRow : List Str → Option (Option Str)
  | [] => none
  | cell :: rest => if cell = descLit then some rest.head? else findDescInRow rest

/-- `soup.find` over the whole page, row-major document order; `some sib?`
means a `"Description"` cell was found and `sib?` is its next sibling. -/
def findDescCell : List (List Str) → Option (Option Str)
  | [] => none
  | row :: rows =>
    match findDescInRow row with
    | some sib => some sib
    | none => findDescCell rows

/-- Lines 122–127: the description, normalized as line 124–125 computes
it; `Except.error ()` is the `AttributeError` raised by `.text` when the
`"Description"` cell has no following sibling cell. -/
def extract_description (page : DetailPage) : Except Unit Str :=
  match findDescCell page.rows with
  | none => Except.ok descFallback
  | some none => Except.error ()
  | some (some sib) => Except.ok (normalizeCode sib)

/-- No cell of the page reads `"Description"`. -/
def NoDescCell (rows : List (List Str)) : Prop := ∀ row ∈ rows, descLit ∉ row

/-- The first `"Description"` cell (row-major) has `sib` right after it. -/
def FirstDescWithSib (rows : List (List Str)) (sib : Str) : Prop :=
  ∃ (r1 : List (List Str)) (pre suf : List Str) (r2 : List (List Str)),
    rows = r1 ++ (pre ++ descLit :: sib :: suf) :: r2 ∧
    (∀ row ∈ r1, descLit ∉ row) ∧ descLit ∉ pre

/-- The first `"Description"` cell (row-major) closes its row. -/
def FirstDescNoSib (rows : List (List Str)) : Prop :=
  ∃ (r1 : List (List Str)) (pre : List Str) (r2 : List (List Str)),
    rows = r1 ++ (pre ++ [descLit]) :: r2 ∧
    (∀ row ∈ r1, descLit ∉ row) ∧ descLit ∉ pre

theorem findDescInRow_eq_none_of (row : List Str) (h : descLit ∉ row) :
    findDescInRow row = none := by
  induction row with
  | nil => rfl
  | cons cell rest ih =>
    rw [findDescInRow, if_neg (fun hc => h (by rw [← hc]; exact List.mem_cons_self cell rest))]
    exact ih fun hc => h (List.mem_cons_of_mem cell hc)

theorem findDescInRow_after (pre : List Str) (after : List Str) (h : descLit ∉ pre) :
    findDescInRow (pre ++ descLit :: after) = some after.head? := by
  induction pre with
  | nil =>
    rw [List.nil_append, findDescInRow, if_pos rfl]
  | cons cell rest ih =>
    rw [List.cons_append, findDescInRow,
      if_neg (fun hc => h (by rw [← hc]; exact List.mem_cons_self cell rest))]
    exact ih fun hc => h (List.mem_cons_of_mem cell hc)

theorem findDescCell_eq_none_of (rows : List (List Str)) (h : NoDescCell rows) :
    findDescCell rows = none := by
  induction rows with
  | nil => rfl
  | cons row rest ih =>
    rw [findDescCell, findDescInRow_eq_none_of row (h row (List.mem_cons_self row rest))]
    exact ih fun r hr => h r (List.mem_cons_of_mem row hr)

theorem findDescCell_with_sib {rows : List (List Str)} {sib : Str}
    (h : FirstDescWithSib rows sib) : findDescCell rows = some (some sib) := by
  obtain ⟨r1, pre, suf, r2, rfl, hr1, hpre⟩ := h
  induction r1 with
  | nil =>
    rw [List.nil_append, findDescCell, findDescInRow_after pre (sib :: suf) hpre]
    rfl
  | cons row rest ih =>
    rw [List.cons_append, findDescCell,
      findDescInRow_eq_none_of row (hr1 row (List.mem_cons_self row rest))]
    exact ih fun r hr => hr1 r (List.mem_cons_of_mem row hr)

theorem findDescCell_no_sib {rows : List (List Str)}
    (h : FirstDescNoSib rows) : findDescCell rows = some none := by
  obtain ⟨r1, pre, r2, rfl, hr1, hpre⟩ := h
  induction r1 with
  | nil =>
    rw [List.nil_append, findDescCell]
    have : pre ++ [descLit] = pre ++ descLit :: [] := rfl
    rw [this, findDescInRow_after pre [] hpre]
    rfl
  | cons row rest ih =>
    rw [List.cons_append, findDescCell,
      findDescInRow_eq_none_of row (hr1 row (List.mem_cons_self row rest))]
    exact ih fun r hr => hr1 r (List.mem_cons_of_mem row hr)

/-! ## The record, the SQLite store and the pipeline (lines 28–156)

The table `ca_cve` (schema of `create_cve_table`, lines 36–43) is a list
of records; its `cve_number TEXT PRIMARY KEY` makes an `INSERT` of a
present key fail with `sqlite3.IntegrityError`, which `insert_cve_to_db`
catches and turns into `False` (lines 72–74) leaving the table unchanged;
a fresh key appends the row. `cve_exists` is the `SELECT 1` check of
lines 86–87. Storage I/O errors are not modelled: the claims under proof
concern the duplicate-key and control-flow behaviour. -/

structure CveDetails where
  cve_number : Str
  cve_name : Str
  cve_description : Str
  cve_pubdate : Str
  cve_link : Str
  cve_severity : Option Str
deriving DecidableEq

abbrev Store := List CveDetails

/-- Lines 78–92: `SELECT 1 FROM ca_cve WHERE cve_number = ?` is nonempty. -/
def cve_exists (store : Store) (n : Str) : Bool :=
  store.any fun rec => rec.cve_number = n

/-- Lines 52–76 plus the primary-key constraint: `(inserted?, new table)`. -/
def insert_cve_to_db (store : Store) (rec : CveDetails) : Bool × Store :=
  if cve_exists store rec.cve_number then (false, store) else (true, store ++ [rec])

/-- One `<item>` of the feed document (lines 104–107). -/
structure FeedItem where
  title : Str
  link : Str
  pubDate : Str
deriving DecidableEq

/-- An HTTP fetch outcome: `err` is a network error or the non-2xx status
`raise_for_status` turns into an exception. -/
inductive FetchResult (α : Type) where
  | ok (val : α)
  | err
deriving DecidableEq

/-- The two fetch oracles of a run: the feed document (already parsed into
its items) and each detail page by link. -/
structure Env where
  feedResult : FetchResult (List FeedItem)
  detailPage : Str → FetchResult DetailPage

/-- Which exception ended the run's `try` block, when one did. -/
inductive AbortReason where
  | feedFetch
  | detailFetch (link : Str)
  | extractError (link : Str)
deriving DecidableEq

/-- The observable state of a run: the table, the counts of the three
per-item outcomes the loop prints (lines 113, 141–142, 73), the links
whose detail pages were requested, and the exception (if any) that
reached the handlers of lines 144–147. -/
structure RunState where
  store : Store
  processed : Nat
  skipped : Nat
  insertFailed : Nat
  fetchedLinks : List Str
  aborted : Option AbortReason
deriving DecidableEq

def initState (store : Store) : RunState :=
  { store := store, processed := 0, skipped := 0, insertFailed := 0,
    fetchedLinks := [], aborted := none }

/-- Lines 132–139: the record built from an item and its clean description. -/
def mkCveDetails (title link pubDate desc : Str) : CveDetails :=
  { cve_number := cveNumberOf title
    cve_name := nameOf title
    cve_description := desc
    cve_pubdate := pubDate
    cve_link := link
    cve_severity := severityOf desc }

/-- The `for item in items` loop of lines 104–142. The whole loop lives
inside the one `try` of line 98, so a detail-fetch error or an extraction
error stops the loop (the exception is caught outside it); a `False` from
`insert_cve_to_db` does not. -/
def processItems (env : Env) : List FeedItem → RunState → RunState
  | [], st => st
  | item :: rest, st =>
    if cve_exists st.store (cveNumberOf item.title) then
      processItems env rest { st with skipped := st.skipped + 1 }
    else
      match env.detailPage item.link with
      | FetchResult.err =>
        { st with fetchedLinks := st.fetchedLinks ++ [item.link],
                  aborted := some (AbortReason.detailFetch item.link) }
      | FetchResult.ok page =>
        match extract_description page with
        | Except.error _ =>
          { st with fetchedLinks := st.fetchedLinks ++ [item.link],
                    aborted := some (AbortReason.extractError item.link) }
        | Except.ok desc =>
          match insert_cve_to_db st.store (mkCveDetails item.title item.link item.pubDate desc) with
          | (true, s2) =>
            processItems env rest
              { st with store := s2, processed := st.processed + 1,
                        fetchedLinks := st.fetchedLinks ++ [item.link] }
          | (false, s2) =>
            processItems env rest
              { st with store := s2, insertFailed := st.insertFailed + 1,
                        fetchedLinks := st.fetchedLinks ++ [item.link] }

/-- Lines 94–147: fetch the feed, then run the loop; a feed fetch error
aborts before any item is visited. -/
def fetch_and_process_cve (env : Env) (store : Store) : RunState :=
  match env.feedResult with
  | FetchResult.err => { initState store with aborted := some AbortReason.feedFetch }
  | FetchResult.ok items => processItems env items (initState store)

/-! ## Pipeline lemmas -/

theorem processItems_skip (env : Env) (st : RunState) (item : FeedItem)
    (rest : List FeedItem) (h : cve_exists st.store (cveNumberOf item.title) = true) :
    processItems env (item :: rest) st =
      processItems env rest { st with skipped := st.skipped + 1 } := by
  rw [processItems, if_pos h]

theorem cve_exists_append {s : Store} {n : Str} (t : Store)
    (h : cve_exists s n = true) : cve_exists (s ++ t) n = true := by
  unfold cve_exists at h ⊢
  rw [List.any_append, h, Bool.true_or]

theorem insert_cve_true {s : Store} {r : CveDetails} {s2 : Store}
    (h : insert_cve_to_db s r = (true, s2)) :
    cve_exists s r.cve_number = false ∧ s2 = s ++ [r] := by
  unfold insert_cve_to_db at h
  by_cases hex : cve_exists s r.cve_number = true
  · rw [if_pos hex] at h
    exact absurd (congrArg Prod.fst h) (by simp)
  · rw [if_neg hex] at h
    exact ⟨by simpa using hex, (congrArg Prod.snd h).symm⟩

theorem insert_cve_false {s : Store} {r : CveDetails} {s2 : Store}
    (h : insert_cve_to_db s r = (false, s2)) :
    cve_exists s r.cve_number = true ∧ s2 = s := by
  unfold insert_cve_to_db at h
  by_cases hex : cve_exists s r.cve_number = true
  · rw [if_pos hex] at h
    exact ⟨hex, (congrArg Prod.snd h).symm⟩
  · rw [if_neg hex] at h
    exact absurd (congrArg Prod.fst h) (by simp)

theorem processItems_fetch_err (env : Env) (st : RunState) (item : FeedItem)
    (rest : List FeedItem) (hex : cve_exists st.store (cveNumberOf item.title) = false)
    (herr : env.detailPage item.link = FetchResult.err) :
    processItems env (item :: rest) st =
      { st with fetchedLinks := st.fetchedLinks ++ [item.link],
                aborted := some (AbortReason.detailFetch item.link) } := by
  rw [processItems, if_neg (by simp [hex])]
  split
  · rfl
  · rename_i page heq
    rw [herr] at heq
    exact FetchResult.noConfusion heq

theorem processItems_extract_err (env : Env) (st : RunState) (item : FeedItem)
    (rest : List FeedItem) (page : DetailPage)
    (hex : cve_exists st.store (cveNumberOf item.title) = false)
    (hok : env.detailPage item.link = FetchResult.ok page)
    (hext : extract_description page = Except.error ()) :
    processItems env (item :: rest) st =
      { st with fetchedLinks := st.fetchedLinks ++ [item.link],
                aborted := some (AbortReason.extractError item.link) } := by
  rw [processItems, if_neg (by simp [hex])]
  split
  · rename_i heq
    rw [hok] at heq
    exact FetchResult.noConfusion heq
  · rename_i page2 heq
    rw [hok] at heq
    obtain rfl : page = page2 := by injection heq
    split
    · rfl
    · rename_i desc heq2
      rw [hext] at heq2
      exact Except.noConfusion heq2

theorem processItems_insert_ok (env : Env) (st : RunState) (item : FeedItem)
    (rest : List FeedItem) (page : DetailPage) (desc : Str) (s2 : Store)
    (hex : cve_exists st.store (cveNumberOf item.title) = false)
    (hok : env.detailPage item.link = FetchResult.ok page)
    (hext : extract_description page = Except.ok desc)
    (hins : insert_cve_to_db st.store (mkCveDetails item.title item.link item.pubDate desc) =
      (true, s2)) :
    processItems env (item :: rest) st =
      processItems env rest
        { st with store := s2, processed := st.processed + 1,
                  fetchedLinks := st.fetchedLinks ++ [item.link] } := by
  rw [processItems, if_neg (by simp [hex])]
  split
  · rename_i heq
    rw [hok] at heq
    exact FetchResult.noConfusion heq
  · rename_i page2 heq
    rw [hok] at heq
    obtain rfl : page = page2 := by injection heq
    split
    · rename_i e heq2
      rw [hext] at heq2
      exact Except.noConfusion heq2
    · rename_i desc2 heq2
      rw [hext] at heq2
      obtain rfl : desc = desc2 := by injection heq2
      split
      · rename_i s3 heq3
        rw [hins] at heq3
        obtain rfl : s2 = s3 := by injection heq3 with h1 h2
        rfl
      · rename_i s3 heq3
        rw [hins] at heq3
        injection heq3 with h1 h2
        exact Bool.noConfusion h1

theorem processItems_insert_dup (env : Env) (st : RunState) (item : FeedItem)
    (rest : List FeedItem) (page : DetailPage) (desc : Str) (s2 : Store)
    (hex : cve_exists st.store (cveNumberOf item.title) = false)
    (hok : env.detailPage item.link = FetchResult.ok page)
    (hext : extract_description page = Except.ok desc)
    (hins : insert_cve_to_db st.store (mkCveDetails item.title item.link item.pubDate desc) =
      (false, s2)) :
    processItems env (item :: rest) st =
      processItems env rest
        { st with store := s2, insertFailed := st.insertFailed + 1,
                  fetchedLinks := st.fetchedLinks ++ [item.link] } := by
  rw [processItems, if_neg (by simp [hex])]
  split
  · rename_i heq
    rw [hok] at heq
    exact FetchResult.noConfusion heq
  · rename_i page2 heq
    rw [hok] at heq
    obtain rfl : page = page2 := by injection heq
    split
    · rename_i e heq2
      rw [hext] at heq2
      exact Except.noConfusion heq2
    · rename_i desc2 heq2
      rw [hext] at heq2
      obtain rfl : desc = desc2 := by injection heq2
      split
      · rename_i s3 heq3
        rw [hins] at heq3
        injection heq3 with h1 h2
        exact Bool.noConfusion h1
      · rename_i s3 heq3
        rw [hins] at heq3
        obtain rfl : s2 = s3 := by injection heq3 with h1 h2
        rfl

theorem cve_exists_append_left {t : Store} {n : Str} (s : Store)
    (h : cve_exists t n = true) : cve_exists (s ++ t) n = true := by
  unfold cve_exists at h ⊢
  rw [List.any_append, h, Bool.or_true]

/-- The loop only ever appends to the table. -/
theorem processItems_store_mono (env : Env) :
    ∀ (items : List FeedItem) (st : RunState),
      ∃ suffix, (processItems env items st).store = st.store ++ suffix := by
  intro items
  induction items with
  | nil =>
    intro st
    exact ⟨[], by rw [processItems, List.append_nil]⟩
  | cons item rest ih =>
    intro st
    by_cases hex : cve_exists st.store (cveNumberOf item.title) = true
    · rw [processItems_skip env st item rest hex]
      exact ih _
    · have hex2 : cve_exists st.store (cveNumberOf item.title) = false := by
        simpa using hex
      rcases henv : env.detailPage item.link with page | _
      · rcases hdesc : extract_description page with e | desc
        · cases e
          rw [processItems_extract_err env st item rest page hex2 henv hdesc]
          exact ⟨[], (List.append_nil _).symm⟩
        · rcases hins : insert_cve_to_db st.store
              (mkCveDetails item.title item.link item.pubDate desc) with ⟨b, s2⟩
          cases b
          · rw [processItems_insert_dup env st item rest page desc s2 hex2 henv hdesc hins,
              (insert_cve_false hins).2]
            exact ih _
          · rw [processItems_insert_ok env st item rest page desc s2 hex2 henv hdesc hins,
              (insert_cve_true hins).2]
            obtain ⟨suf, hsuf⟩ := ih
              { st with store := st.store ++ [mkCveDetails item.title item.link item.pubDate desc],
                        processed := st.processed + 1,
                        fetchedLinks := st.fetchedLinks ++ [item.link] }
            exact ⟨[mkCveDetails item.title item.link item.pubDate desc] ++ suf,
              by rw [hsuf, List.append_assoc]⟩
      · rw [processItems_fetch_err env st item rest hex2 henv]
        exact ⟨[], (List.append_nil _).symm⟩

/-- A run with every item already stored only counts skips. -/
theorem processItems_all_skip (env : Env) :
    ∀ (items : List FeedItem) (st : RunState),
      (∀ it ∈ items, cve_exists st.store (cveNumberOf it.title) = true) →
      processItems env items st = { st with skipped := st.skipped + items.length } := by
  intro items
  induction items with
  | nil =>
    intro st _
    show st = { st with skipped := st.skipped + 0 }
    cases st
    rfl
  | cons item rest ih =>
    intro st hall
    rw [processItems_skip env st item rest (hall item (List.mem_cons_self item rest)),
      ih { st with skipped := st.skipped + 1 }
        (fun it hit => hall it (List.mem_cons_of_mem item hit))]
    cases st
    simp only [List.length_cons]
    congr 1
    omega

/-- After a loop that was not cut short by an exception, every visited
item's identifier is in the table. -/
theorem processItems_all_exist (env : Env) :
    ∀ (items : List FeedItem) (st : RunState),
      (processItems env items st).aborted = none →
      ∀ it ∈ items, cve_exists (processItems env items st).store (cveNumberOf it.title) = true := by
  intro items
  induction items with
  | nil =>
    intro st _ it hit
    exact absurd hit (List.not_mem_nil it)
  | cons item rest ih =>
    intro st hab it hit
    by_cases hex : cve_exists st.store (cveNumberOf item.title) = true
    · rw [processItems_skip env st item rest hex] at hab ⊢
      rcases List.mem_cons.1 hit with rfl | hit2
      · obtain ⟨suf, hsuf⟩ := processItems_store_mono env rest
          { st with skipped := st.skipped + 1 }
        rw [hsuf]
        exact cve_exists_append suf hex
      · exact ih _ hab it hit2
    · have hex2 : cve_exists st.store (cveNumberOf item.title) = false := by
        simpa using hex
      rcases henv : env.detailPage item.link with page | _
      · rcases hdesc : extract_description page with e | desc
        · cases e
          rw [processItems_extract_err env st item rest page hex2 henv hdesc] at hab
          exact absurd hab (by simp)
        · rcases hins : insert_cve_to_db st.store
              (mkCveDetails item.title item.link item.pubDate desc) with ⟨b, s2⟩
          cases b
          · refine absurd ((insert_cve_false hins).1) ?_
            show ¬cve_exists st.store (cveNumberOf item.title) = true
            simp [hex2]
          · rw [processItems_insert_ok env st item rest page desc s2 hex2 henv hdesc hins]
              at hab ⊢
            rcases List.mem_cons.1 hit with rfl | hit2
            · obtain ⟨suf, hsuf⟩ := processItems_store_mono env rest
                { st with store := s2, processed := st.processed + 1,
                          fetchedLinks := st.fetchedLinks ++ [it.link] }
              rw [hsuf]
              show cve_exists (s2 ++ suf) (cveNumberOf it.title) = true
              rw [(insert_cve_true hins).2, List.append_assoc]
              refine cve_exists_append_left st.store ?_
              refine cve_exists_append suf ?_
              unfold cve_exists
              simp [mkCveDetails]
            · exact ih _ hab it hit2
      · rw [processItems_fetch_err env st item rest hex2 henv] at hab
        exact absurd hab (by simp)

/-! ## Store invariants (C8, C10) -/

/-- The primary-key invariant: pairwise distinct identifiers. -/
def UniqueKeys (s : Store) : Prop :=
  s.Pairwise fun r1 r2 => r1.cve_number ≠ r2.cve_number

/-- The first stored record under an identifier (a `SELECT` by key). -/
def lookupStore (s : Store) (n : Str) : Option CveDetails :=
  s.find? fun rec => rec.cve_number = n

/-- The states the table can reach from empty through inserts. -/
inductive ReachableStore : Store → Prop
  | empty : ReachableStore []
  | insert (s : Store) (r : CveDetails) (h : ReachableStore s) :
      ReachableStore (insert_cve_to_db s r).2

theorem cve_exists_eq_false_iff (s : Store) (n : Str) :
    cve_exists s n = false ↔ ∀ rec ∈ s, rec.cve_number ≠ n := by
  unfold cve_exists
  rw [← Bool.not_eq_true, List.any_eq_true]
  simp

theorem insert_preserves_uniqueKeys {s : Store} (r : CveDetails)
    (h : UniqueKeys s) : UniqueKeys (insert_cve_to_db s r).2 := by
  unfold insert_cve_to_db
  by_cases hex : cve_exists s r.cve_number = true
  · rw [if_pos hex]
    exact h
  · rw [if_neg hex]
    show UniqueKeys (s ++ [r])
    rw [UniqueKeys, List.pairwise_append]
    refine ⟨h, List.pairwise_singleton _ r, ?_⟩
    intro a ha b hb
    rw [List.mem_singleton] at hb
    rw [hb]
    exact (cve_exists_eq_false_iff s r.cve_number).1 (by simpa using hex) a ha

theorem reachable_uniqueKeys {s : Store} (h : ReachableStore s) : UniqueKeys s := by
  induction h with
  | empty => exact List.Pairwise.nil
  | insert s r _ ih => exact insert_preserves_uniqueKeys r ih

theorem insert_preserves_lookup {s : Store} {n : Str} {v : CveDetails}
    (h : lookupStore s n = some v) (r : CveDetails) :
    lookupStore (insert_cve_to_db s r).2 n = some v := by
  unfold insert_cve_to_db
  by_cases hex : cve_exists s r.cve_number = true
  · rw [if_pos hex]
    exact h
  · rw [if_neg hex]
    show lookupStore (s ++ [r]) n = some v
    unfold lookupStore at h ⊢
    rw [List.find?_append, h]
    rfl

/-- Distinct keys bound the number of records under any one identifier. -/
theorem uniqueKeys_countP_le_one {s : Store} (h : UniqueKeys s) (n : Str) :
    s.countP (fun rec => rec.cve_number = n) ≤ 1 := by
  induction s with
  | nil => simp
  | cons r t ih =>
    have h2 : List.Pairwise (fun r1 r2 : CveDetails => r1.cve_number ≠ r2.cve_number)
        (r :: t) := h
    rw [List.pairwise_cons] at h2
    by_cases hr : r.cve_number = n
    · rw [List.countP_cons, if_pos (by simpa using hr)]
      have hzero : t.countP (fun rec => rec.cve_number = n) = 0 := by
        rw [List.countP_eq_zero]
        intro a ha
        simp only [decide_eq_true_eq]
        intro hc
        exact h2.1 a ha (by rw [hr, hc])
      omega
    · rw [List.countP_cons, if_neg (by simpa using hr)]
      simpa using ih h2.2

theorem processItems_preserves_uniqueKeys (env : Env) :
    ∀ (items : List FeedItem) (st : RunState), UniqueKeys st.store →
      UniqueKeys (processItems env items st).store := by
  intro items
  induction items with
  | nil =>
    intro st h
    exact h
  | cons item rest ih =>
    intro st h
    by_cases hex : cve_exists st.store (cveNumberOf item.title) = true
    · rw [processItems_skip env st item rest hex]
      exact ih _ h
    · have hex2 : cve_exists st.store (cveNumberOf item.title) = false := by
        simpa using hex
      rcases henv : env.detailPage item.link with page | _
      · rcases hdesc : extract_description page with e | desc
        · cases e
          rw [processItems_extract_err env st item rest page hex2 henv hdesc]
          exact h
        · rcases hins : insert_cve_to_db st.store
              (mkCveDetails item.title item.link item.pubDate desc) with ⟨b, s2⟩
          cases b
          · rw [processItems_insert_dup env st item rest page desc s2 hex2 henv hdesc hins,
              (insert_cve_false hins).2]
            exact ih _ h
          · rw [processItems_insert_ok env st item rest page desc s2 hex2 henv hdesc hins]
            refine ih _ ?_
            show UniqueKeys s2
            have := insert_preserves_uniqueKeys
              (mkCveDetails item.title item.link item.pubDate desc) h
            rw [hins] at this
            exact this
      · rw [processItems_fetch_err env st item rest hex2 henv]
        exact h

/-! ## Concrete fixtures used by witnesses and counterexamples -/

def itemC1a : FeedItem :=
  { title := "CVE-2024-0001 - First".toList, link := "l1".toList, pubDate := "d1".toList }

def itemC1b : FeedItem :=
  { title := "CVE-2024-0002 - Second".toList, link := "l2".toList, pubDate := "d2".toList }

/-- A page with no `"Description"` cell at all. -/
def pagePlain : DetailPage := { rows := [["Other".toList, "x".toList]] }

/-- The feed of two items whose first detail fetch fails. -/
def envC1 : Env :=
  { feedResult := FetchResult.ok [itemC1a, itemC1b]
    detailPage := fun l => if l = "l1".toList then FetchResult.err
      else FetchResult.ok pagePlain }

def recC3 : CveDetails :=
  { cve_number := "CVE-2024-0001".toList, cve_name := "First".toList,
    cve_description := "d".toList, cve_pubdate := "p".toList,
    cve_link := "l1".toList, cve_severity := none }

def recNA : CveDetails :=
  { cve_number := "N/A".toList, cve_name := "N/A".toList,
    cve_description := "Description not available.".toList, cve_pubdate := "p".toList,
    cve_link := "l0".toList, cve_severity := none }

def itemC10 : FeedItem :=
  { title := "nothing to see".toList, link := "l9".toList, pubDate := "d9".toList }

/-- A page whose first `"Description"` cell closes its row. -/
def pageC2 : DetailPage := { rows := [["Description".toList]] }

def itemC2 : FeedItem :=
  { title := "CVE-2024-0002 - Second".toList, link := "l2".toList, pubDate := "d2".toList }

def envC2 : Env :=
  { feedResult := FetchResult.ok [itemC2], detailPage := fun _ => FetchResult.ok pageC2 }

def pageC5 : DetailPage :=
  { rows := [["Name".toList, "x".toList],
             ["Description".toList, " CVE &amp; details ".toList]] }

/-! ## The claims -/

/-- C9: when the feed fetch itself fails, the run aborts with the
feed-level failure before any entry is processed: zero entries are
iterated (all counts are zero), no detail page is requested, and the
store is unchanged. -/
theorem claim_C9_feed_failure_aborts (env : Env) (store : Store)
    (h : env.feedResult = FetchResult.err) :
    fetch_and_process_cve env store =
      { store := store, processed := 0, skipped := 0, insertFailed := 0,
        fetchedLinks := [], aborted := some AbortReason.feedFetch } := by
  unfold fetch_and_process_cve
  rw [h]
  rfl

theorem claim_C9_witness :
    fetch_and_process_cve { feedResult := FetchResult.err, detailPage := fun _ => FetchResult.err } [] =
      { store := [], processed := 0, skipped := 0, insertFailed := 0,
        fetchedLinks := [], aborted := some AbortReason.feedFetch } :=
  claim_C9_feed_failure_aborts
    { feedResult := FetchResult.err, detailPage := fun _ => FetchResult.err } [] rfl

/-- C1 as stated is false on the code: the detail-page fetch of line 117
raises inside the one `try` of line 98, so the failure is not per-item.
With two fresh entries whose first detail fetch fails and whose second
would succeed, the run aborts at the first: nothing is processed, the
second entry is never reached, and only the first link was requested. -/
theorem claim_C1_counterexample :
    (fetch_and_process_cve envC1 []).aborted =
      some (AbortReason.detailFetch "l1".toList) ∧
    (fetch_and_process_cve envC1 []).processed = 0 ∧
    (fetch_and_process_cve envC1 []).store = [] ∧
    (fetch_and_process_cve envC1 []).fetchedLinks = ["l1".toList] := by
  refine ⟨?_, ?_, ?_, ?_⟩ <;> rfl

/-- C1 amended: a detail-page fetch failure is logged and caught at the
run level, not the item level: it aborts the remainder of the run — the
failing entry and all later entries are dropped — while the store, the
counts and the fetch log accumulated before the failure are kept. -/
theorem claim_C1_detail_failure_aborts (env : Env) (st : RunState) (item : FeedItem)
    (rest : List FeedItem)
    (hnew : cve_exists st.store (cveNumberOf item.title) = false)
    (herr : env.detailPage item.link = FetchResult.err) :
    processItems env (item :: rest) st =
      { st with fetchedLinks := st.fetchedLinks ++ [item.link],
                aborted := some (AbortReason.detailFetch item.link) } :=
  processItems_fetch_err env st item rest hnew herr

theorem claim_C1_witness :
    processItems envC1 [itemC1a, itemC1b] (initState []) =
      { initState [] with fetchedLinks := ["l1".toList],
                          aborted := some (AbortReason.detailFetch "l1".toList) } :=
  claim_C1_detail_failure_aborts envC1 (initState []) itemC1a [itemC1b]
    (by decide) (by decide)

/-- An environment that serves the given feed items. -/
def feedEnv (pages : Str → FetchResult DetailPage) (items : List FeedItem) : Env :=
  { feedResult := FetchResult.ok items, detailPage := pages }

/-- C3: an entry whose identifier is already stored is skipped — the skip
count increments and the loop continues on the remaining entries with the
store, the fetch log and every other component unchanged. Consequently a
feed all of whose identifiers are stored only counts skips and leaves the
store unchanged, and after a run that completed without aborting,
re-running the same feed against the resulting store skips every entry
and mutates nothing (idempotence). -/
theorem claim_C3_skip_existing (env : Env) (st : RunState) (item : FeedItem)
    (rest : List FeedItem)
    (h : cve_exists st.store (cveNumberOf item.title) = true) :
    processItems env (item :: rest) st =
      processItems env rest { st with skipped := st.skipped + 1 } ∧
    (∀ (items : List FeedItem) (store : Store),
      (∀ it ∈ items, cve_exists store (cveNumberOf it.title) = true) →
      fetch_and_process_cve (feedEnv env.detailPage items) store =
        { initState store with skipped := items.length }) ∧
    (∀ (items : List FeedItem) (store : Store),
      (fetch_and_process_cve (feedEnv env.detailPage items) store).aborted = none →
      fetch_and_process_cve (feedEnv env.detailPage items)
        (fetch_and_process_cve (feedEnv env.detailPage items) store).store =
        { initState (fetch_and_process_cve (feedEnv env.detailPage items) store).store
            with skipped := items.length }) := by
  refine ⟨processItems_skip env st item rest h, ?_, ?_⟩
  · intro items store hall
    show processItems (feedEnv env.detailPage items) items (initState store) =
      { initState store with skipped := items.length }
    rw [processItems_all_skip _ items (initState store) hall]
    show ({ initState store with skipped := 0 + items.length } : RunState) = _
    rw [Nat.zero_add]
  · intro items store hab
    have hfx : ∀ s : Store, fetch_and_process_cve (feedEnv env.detailPage items) s =
        processItems (feedEnv env.detailPage items) items (initState s) := fun _ => rfl
    have hall := processItems_all_exist (feedEnv env.detailPage items) items
      (initState store) hab
    rw [hfx, hfx]
    rw [processItems_all_skip (feedEnv env.detailPage items) items
      (initState (processItems (feedEnv env.detailPage items) items (initState store)).store)
      (fun it hit => hall it hit)]
    show ({ initState
        (processItems (feedEnv env.detailPage items) items (initState store)).store
        with skipped := 0 + items.length } : RunState) = _
    rw [Nat.zero_add]

theorem claim_C3_witness :
    processItems envC1 [itemC1a] (initState [recC3]) =
      processItems envC1 []
        { initState [recC3] with skipped := (initState [recC3]).skipped + 1 } :=
  (claim_C3_skip_existing envC1 (initState [recC3]) itemC1a [] (by decide)).1

/-- C10: once a record with identifier `"N/A"` is stored, any entry whose
title contains no CVE match is skipped by the existence check — the loop
moves on with only the skip count incremented, so its detail page is
never fetched and no duplicate-key insert failure arises; and since the
loop preserves key uniqueness, a table with unique keys never comes to
hold more than one `"N/A"` record. -/
theorem claim_C10_na_conflation (env : Env) (st : RunState) (item : FeedItem)
    (rest : List FeedItem)
    (hmatch : reSearch matchCveAt item.title = none)
    (hin : cve_exists st.store naStr = true) :
    processItems env (item :: rest) st =
      processItems env rest { st with skipped := st.skipped + 1 } ∧
    (∀ (items : List FeedItem) (st2 : RunState), UniqueKeys st2.store →
      (processItems env items st2).store.countP
        (fun rec => rec.cve_number = naStr) ≤ 1) := by
  constructor
  · refine processItems_skip env st item rest ?_
    rw [show cveNumberOf item.title = naStr from by rw [cveNumberOf, hmatch]; rfl]
    exact hin
  · intro items st2 hu
    exact uniqueKeys_countP_le_one (processItems_preserves_uniqueKeys env items st2 hu) naStr

theorem claim_C10_witness :
    processItems envC1 [itemC10] (initState [recNA]) =
      processItems envC1 []
        { initState [recNA] with skipped := (initState [recNA]).skipped + 1 } :=
  (claim_C10_na_conflation envC1 (initState [recNA]) itemC10 [] (by decide) (by decide)).1

/-- C8: identifiers are unique in every table state reachable through
inserts from the empty table; inserting a record whose identifier is
already present fails (the duplicate-key error becomes a `false` return)
and leaves the table unchanged; and the only mutating operation preserves
every existing binding, so a record is never modified after its
successful insertion. -/
theorem claim_C8_store_invariants :
    (∀ s : Store, ReachableStore s → UniqueKeys s) ∧
    (∀ (s : Store) (r : CveDetails), cve_exists s r.cve_number = true →
      insert_cve_to_db s r = (false, s)) ∧
    (∀ (s : Store) (n : Str) (v : CveDetails) (r : CveDetails),
      lookupStore s n = some v → lookupStore (insert_cve_to_db s r).2 n = some v) := by
  refine ⟨fun s h => reachable_uniqueKeys h, fun s r h => ?_,
    fun s n v r h => insert_preserves_lookup h r⟩
  unfold insert_cve_to_db
  rw [if_pos h]

theorem claim_C8_witness : insert_cve_to_db [recC3] recC3 = (false, [recC3]) :=
  claim_C8_store_invariants.2.1 [recC3] recC3 (by decide)

/-- C4: the record's identifier is the title's first (leftmost, greedy)
match of `CVE-\d{4}-\d{4,}`: a title with no match anywhere yields the
literal `"N/A"`; when matches exist the identifier is a pattern match
occurring at the earliest matching position; and whenever a maximal
match `m` starts at a position before which no match starts, the
identifier equals exactly `m`. -/
theorem claim_C4_identifier (title link pub desc : Str) :
    (mkCveDetails title link pub desc).cve_number = cveNumberOf title ∧
    ((∀ i, ¬HasCveAt title i) → cveNumberOf title = naStr) ∧
    ((∃ i, HasCveAt title i) → ∃ i rest, title.drop i = cveNumberOf title ++ rest ∧
      IsCveId (cveNumberOf title) ∧ ∀ j < i, ¬HasCveAt title j) ∧
    (∀ (i : Nat) (m rest : Str), title.drop i = m ++ rest → IsCveId m →
      (∀ c, rest.head? = some c → c.isDigit = false) →
      (∀ j < i, ¬HasCveAt title j) → cveNumberOf title = m) := by
  refine ⟨rfl, ?_, ?_, ?_⟩
  · intro hno
    rcases hs : reSearch matchCveAt title with _ | m
    · rw [cveNumberOf, hs]
      rfl
    · exfalso
      obtain ⟨i, hi, -⟩ := reSearch_eq_some matchCveAt title m hs
      obtain ⟨rest, hdec, hm, -⟩ := (matchCveAt_eq_some_iff _ m).1 hi
      exact hno i ⟨m, rest, hdec, hm⟩
  · rintro ⟨i0, m0, rest0, hdec0, hm0⟩
    rcases hs : reSearch matchCveAt title with _ | m
    · exfalso
      obtain ⟨m2, hm2⟩ := matchCveAt_isSome_of_front hdec0 hm0
      rw [reSearch_eq_none matchCveAt title hs i0] at hm2
      exact Option.noConfusion hm2
    · obtain ⟨i, hi, hfirst⟩ := reSearch_eq_some matchCveAt title m hs
      obtain ⟨rest, hdec, hm, -⟩ := (matchCveAt_eq_some_iff _ m).1 hi
      refine ⟨i, rest, ?_, ?_, ?_⟩
      · rw [cveNumberOf, hs]
        exact hdec
      · rw [cveNumberOf, hs]
        exact hm
      · intro j hj ⟨mj, restj, hdecj, hmj⟩
        obtain ⟨m2, hm2⟩ := matchCveAt_isSome_of_front hdecj hmj
        rw [hfirst j hj] at hm2
        exact Option.noConfusion hm2
  · intro i m rest hdec hm hgreedy hfirst
    have hi : matchCveAt (title.drop i) = some m :=
      (matchCveAt_eq_some_iff _ m).2 ⟨rest, hdec, hm, hgreedy⟩
    have hnone : ∀ j < i, matchCveAt (title.drop j) = none := by
      intro j hj
      rcases hj2 : matchCveAt (title.drop j) with _ | m2
      · rfl
      · exfalso
        obtain ⟨rest2, hdec2, hm2, -⟩ := (matchCveAt_eq_some_iff _ m2).1 hj2
        exact hfirst j hj ⟨m2, rest2, hdec2, hm2⟩
    rw [cveNumberOf, reSearch_eq_some_of_first matchCveAt title m i hi hnone]
    rfl

theorem claim_C4_witness :
    cveNumberOf "CVE-2024-12345 - Foo".toList = "CVE-2024-12345".toList :=
  (claim_C4_identifier "CVE-2024-12345 - Foo".toList [] [] []).2.2.2 0
    "CVE-2024-12345".toList " - Foo".toList (by decide)
    ⟨'2', '0', '2', '4', "12345".toList, by decide, by decide, by decide, by decide,
      by decide, by decide, by decide⟩
    (fun c hc => by
      have h2 : ' ' = c := by
        have h3 : (" - Foo".toList).head? = some ' ' := by decide
        rw [h3] at hc
        exact Option.some.inj hc
      rw [← h2]
      decide)
    (fun j hj => absurd hj (Nat.not_lt_zero j))

/-- C6: the record's severity is group 1 of the first (leftmost) match of
`Severity:\s*(\d+(\.\d+)?)\s*\|\s*(\w+)` against the normalized
description, kept exactly as written; when no position of the description
matches, the severity is `none`. -/
theorem claim_C6_severity (title link pub desc : Str) :
    (mkCveDetails title link pub desc).cve_severity = severityOf desc ∧
    ((∀ i g, ¬SevAt (desc.drop i) g) → severityOf desc = none) ∧
    (∀ (i : Nat) (g : Str), SevAt (desc.drop i) g →
      (∀ j < i, ∀ g2, ¬SevAt (desc.drop j) g2) → severityOf desc = some g) := by
  refine ⟨rfl, ?_, ?_⟩
  · intro hno
    rcases hs : reSearch matchSeverityAt desc with _ | g
    · exact hs
    · exfalso
      obtain ⟨i, hi, -⟩ := reSearch_eq_some matchSeverityAt desc g hs
      exact hno i g ((matchSeverityAt_eq_some_iff _ g).1 hi)
  · intro i g hg hfirst
    have hi : matchSeverityAt (desc.drop i) = some g :=
      (matchSeverityAt_eq_some_iff _ g).2 hg
    have hnone : ∀ j < i, matchSeverityAt (desc.drop j) = none := by
      intro j hj
      rcases hj2 : matchSeverityAt (desc.drop j) with _ | g2
      · rfl
      · exact absurd ((matchSeverityAt_eq_some_iff _ g2).1 hj2) (hfirst j hj g2)
    exact reSearch_eq_some_of_first matchSeverityAt desc g i hi hnone

theorem claim_C6_witness :
    severityOf "Severity: 7.5 | High. Some details.".toList = some "7.5".toList :=
  (claim_C6_severity [] [] [] "Severity: 7.5 | High. Some details.".toList).2.2 0
    "7.5".toList
    ⟨[' '], "7".toList, ".5".toList, [' '], [' '], 'H', "igh. Some details.".toList,
      by decide, by decide, by decide, by decide,
      ⟨by decide, by decide, Or.inr ⟨"5".toList, by decide, by decide, by decide⟩⟩,
      by decide, by decide⟩
    (fun j hj g2 => absurd hj (Nat.not_lt_zero j))

/-- C7: the record's name is the remainder of the title after the first
occurrence of the separator `"- "`; a title not containing the separator
yields the literal `"N/A"`. -/
theorem claim_C7_name (title link pub desc : Str) :
    (mkCveDetails title link pub desc).cve_name = nameOf title ∧
    (¬SepIn title → nameOf title = naStr) ∧
    (∀ a b : Str, title = a ++ '-' :: ' ' :: b → ¬SepIn a → nameOf title = b) := by
  refine ⟨rfl, ?_, ?_⟩
  · intro hno
    rw [nameOf, (splitOnSep_eq_none_iff title).2 hno]
    rfl
  · intro a b hdec hna
    rw [nameOf, (splitOnSep_eq_some_iff title b).2 ⟨a, hdec, hna⟩]
    rfl

theorem claim_C7_witness :
    nameOf "CVE-2024-1234 - Example Flaw".toList = "Example Flaw".toList :=
  (claim_C7_name "CVE-2024-1234 - Example Flaw".toList [] [] []).2.2
    "CVE-2024-1234 ".toList "Example Flaw".toList (by decide) (by decide)

/-- C5: a detail page without a `"Description"` cell yields exactly the
fallback literal `"Description not available."`; when the first such cell
has a next sibling cell, the description is that sibling's text
HTML-unescaped, newlines replaced by single spaces, and trimmed (the
code's extra initial strip is redundant, by `normalizeCode_eq_normalizeSpec`);
and the record stores the extracted description verbatim. -/
theorem claim_C5_description (page : DetailPage) (title link pub desc : Str) :
    (mkCveDetails title link pub desc).cve_description = desc ∧
    (NoDescCell page.rows → extract_description page = Except.ok descFallback) ∧
    (∀ sib, FirstDescWithSib page.rows sib →
      extract_description page = Except.ok (stripStr (replaceNL (unescapeL sib)))) := by
  refine ⟨rfl, ?_, ?_⟩
  · intro hno
    unfold extract_description
    rw [findDescCell_eq_none_of page.rows hno]
  · intro sib hsib
    unfold extract_description
    rw [findDescCell_with_sib hsib]
    show Except.ok (normalizeCode sib) = _
    rw [normalizeCode_eq_normalizeSpec]
    rfl

theorem claim_C5_witness :
    extract_description pageC5 = Except.ok ("CVE & details".toList) := by
  have h := (claim_C5_description pageC5 [] [] [] []).2.2 " CVE &amp; details ".toList
    ⟨[["Name".toList, "x".toList]], [], [], [], by decide, by decide, by decide⟩
  rw [h]
  have h2 : stripStr (replaceNL (unescapeL " CVE &amp; details ".toList)) =
      "CVE & details".toList := by decide
  rw [h2]

/-- C2 as stated is false on the code: a page whose first `"Description"`
cell has no following sibling cell makes `.find_next_sibling('td')`
return `None`, and `.text` on it raises `AttributeError` (line 124), so
extraction does not return a record; the exception aborts the run. -/
theorem claim_C2_counterexample :
    extract_description pageC2 = Except.error () ∧
    (fetch_and_process_cve envC2 []).aborted =
      some (AbortReason.extractError "l2".toList) ∧
    (fetch_and_process_cve envC2 []).store = [] := by
  refine ⟨?_, ?_, ?_⟩ <;> rfl

/-- C2 amended: extraction returns a record in every case but one — a
missing `"Description"` cell falls back to the literal, a present cell
with a following sibling yields a record (unmatched severity or title
patterns only produce fallback field values, since the field functions
are total) — except that a first `"Description"` cell that closes its row
raises, which aborts the run. -/
theorem claim_C2_extraction_totality (page : DetailPage) :
    (NoDescCell page.rows → ∃ d, extract_description page = Except.ok d) ∧
    (∀ sib, FirstDescWithSib page.rows sib → ∃ d, extract_description page = Except.ok d) ∧
    (FirstDescNoSib page.rows → extract_description page = Except.error ()) := by
  refine ⟨?_, ?_, ?_⟩
  · intro hno
    refine ⟨descFallback, ?_⟩
    unfold extract_description
    rw [findDescCell_eq_none_of page.rows hno]
  · intro sib hsib
    refine ⟨normalizeCode sib, ?_⟩
    unfold extract_description
    rw [findDescCell_with_sib hsib]
  · intro hnosib
    unfold extract_description
    rw [findDescCell_no_sib hnosib]

theorem claim_C2_witness : extract_description pageC2 = Except.error () :=
  (claim_C2_extraction_totality pageC2).2.2
    ⟨[], [], [], by decide, by decide, by decide⟩
